import Mathlib

/-!
Verification of the INI reader (`src/ini_reader.h`) of stairspeedtest-reborn.

Strings are modelled as lists of characters (`Str`), mirroring `std::string`
as a character sequence.  `std::map` and `std::multimap` are modelled as
association lists kept in key-sorted order, with insertion functions that
mirror the ordered-insert behaviour of the C++ containers (a `multimap`
insert places the new pair after all existing pairs with an equal key).
The helper functions of `misc.h` (not present under `src/`) are modelled
from the specification where noted.
-/

namespace IniModel

/-- Character-list model of `std::string`. -/
abbrev Str := List Char

/-- One key/value item of a section, as stored in the multimap. -/
abbrev Item := Str × Str

/-- Model of `string_multimap` (`std::multimap<std::string, std::string>`):
a list of items kept sorted by key. -/
abbrev Group := List Item

/-- Model of `ini_data_struct` (`std::map<std::string, string_multimap>`):
a list of named sections kept sorted by name. -/
abbrev Content := List (Str × Group)

/-- Strict lexicographic order on character lists, as used by the C++
ordered containers for `std::string` keys (byte-wise comparison; UTF-8
byte order coincides with code-point order). -/
def ltStr : Str → Str → Bool
  | [], [] => false
  | [], _ :: _ => true
  | _ :: _, [] => false
  | a :: as, b :: bs => if a < b then true else if b < a then false else ltStr as bs

/-- The reserved marker key for free-form lines, `{NONAME}` in the source. -/
def noname : Str := ['{', 'N', 'O', 'N', 'A', 'M', 'E', '}']

/-- Multimap insert: the new item is placed before the first existing item
whose key is strictly greater, hence after all items with an equal key,
matching `std::multimap::insert` (upper bound of the equal range). -/
def mmInsert (x : Item) : Group → Group
  | [] => [x]
  | y :: rest => if ltStr x.1 y.1 then x :: y :: rest else y :: mmInsert x rest

/-- Map insert for the section map, at the sorted position of the name.
In `Parse` it is only invoked for names not already present. -/
def secInsert (n : Str) (g : Group) : Content → Content
  | [] => [(n, g)]
  | (m, h) :: rest => if ltStr n m then (n, g) :: (m, h) :: rest else (m, h) :: secInsert n g rest

/-- Lookup of a section by exact name (`std::map::find` / `at` / `count`). -/
def lookupSec : Content → Str → Option Group
  | [], _ => none
  | (m, g) :: rest, n => if m = n then some g else lookupSec rest n

/-- In-place replacement of the group of an existing section
(`ini_content[section] = mapTemp` on a present key, or mutation through
the reference returned by `at`). -/
def updateSec : Content → Str → Group → Content
  | [], _, _ => []
  | (m, h) :: rest, n, g => if m = n then (m, g) :: rest else (m, h) :: updateSec rest n g

/-- Modelled from the spec: `trim` of `misc.h` removes surrounding
whitespace; left part (leading whitespace). -/
def trimL (s : Str) : Str := s.dropWhile Char.isWhitespace

/-- Modelled from the spec: trailing-whitespace removal. -/
def trimR (s : Str) : Str := (s.reverse.dropWhile Char.isWhitespace).reverse

/-- Modelled from the spec: key and value are each trimmed of surrounding
whitespace. -/
def trim (s : Str) : Str := trimR (trimL s)

/-- Modelled from the spec: `replace_all_distinct(strLine, "\r", "")`
removes every carriage return from the line. -/
def stripCR (s : Str) : Str := s.filter (fun c => decide (c ≠ '\r'))

/-- Modelled from the spec: full match of the item pattern
`^(.*?)=(.*?)$` — the line contains a `=`; the ECMAScript dot does not
match a newline, so a line still containing a newline never matches. -/
def isItemLine (l : Str) : Bool := decide ('=' ∈ l ∧ '\n' ∉ l)

/-- Modelled from the spec: full match of the section pattern
`^\[(.*?)\]$` — the line starts with `[`, ends with `]`, has length at
least two, and contains no newline. -/
def isSectionLine (l : Str) : Bool :=
  decide (l.head? = some '[' ∧ l.getLast? = some ']' ∧ 2 ≤ l.length ∧ '\n' ∉ l)

/-- Modelled from the spec: capture `$1` of the item pattern — the part
before the first `=` (lazy match semantics). -/
def keyOf : Str → Str
  | [] => []
  | c :: r => if c = '=' then [] else c :: keyOf r

/-- Modelled from the spec: capture `$2` of the item pattern — the part
after the first `=`. -/
def valOf : Str → Str
  | [] => []
  | c :: r => if c = '=' then r else valOf r

/-- Modelled from the spec: capture `$1` of the section pattern — the
text between the leading `[` and the final `]`. -/
def sectionName (l : Str) : Str := (l.drop 1).dropLast

/-- Helper for `getlines`: split on every occurrence of the delimiter
(the result always has one more piece than there are delimiters). -/
def splitter (d : Char) : Str → List Str
  | [] => [[]]
  | c :: rest =>
    match splitter d rest with
    | [] => [[c]]
    | l :: ls => if c = d then [] :: l :: ls else (c :: l) :: ls

/-- Model of the `std::getline` loop: one line per delimiter-terminated
chunk; a trailing delimiter does not produce an extra empty line, and an
empty input produces no lines. -/
def getlines (d : Char) (t : Str) : List Str :=
  if t = [] then []
  else if t.getLast? = some d then (splitter d t).dropLast
  else splitter d t

/-- Delimiter heuristic of `Parse`: split on `\r` when the whole input
contains at most one `\n`, otherwise split on `\n`. -/
def delimOf (t : Str) : Char := if t.count '\n' ≤ 1 then '\r' else '\n'

/-- The logical lines `Parse` iterates over for a given input. -/
def linesOf (t : Str) : List Str := getlines (delimOf t) t

/-- A line that never reaches the classifier: empty, longer than
`MAX_LINE_LENGTH` (4096), or starting with `;` or `#`. -/
def isSkippable (l : Str) : Bool :=
  decide (l = [] ∨ 4096 < l.length ∨ l.head? = some ';' ∨ l.head? = some '#')

/-- Model of `chkIgnore`: a section is ignored when it is excluded, or
when the include list is non-empty and does not contain it. -/
def chkIgnoreL (E I : List Str) (sec : Str) : Bool :=
  let excluded : Bool := decide (0 < E.count sec)
  let included : Bool := if I.length ≠ 0 then decide (0 < I.count sec) else true
  excluded || !included

/-- Parser state of `INIReader`, with the fields of the C++ class.  The
`do_utf8_to_gbk` transcoding hook is an external collaborator per the
spec and is not modelled. -/
structure IniState where
  parsed : Bool
  current_section : Str
  ini_content : Content
  exclude_sections : List Str
  include_sections : List Str
  read_sections : List Str
  cached_section : Str
  cached_section_content : Group
  store_any_line : Bool
  deriving DecidableEq

/-- A freshly constructed `INIReader`. -/
def initState : IniState :=
  { parsed := false
    current_section := []
    ini_content := []
    exclude_sections := []
    include_sections := []
    read_sections := []
    cached_section := []
    cached_section_content := []
    store_any_line := false }

/-- Result of processing one classified line inside the `Parse` loop:
fail with `-1`, `continue` (skipping the early-exit check), or proceed
with updated loop state (reaching the early-exit check). -/
inductive StepRes where
  | err : StepRes
  | skip : StepRes
  | cont (inEx : Bool) (cur : Str) (grp : Group) (content : Content) (read : List Str) : StepRes

/-- One iteration body of the `Parse` loop for a non-skippable line:
the item pattern is tested first, then the section pattern, then the
free-form case guarded by `store_any_line`. -/
def lineStep (E I : List Str) (sal : Bool) (l : Str) (inEx : Bool) (cur : Str)
    (grp : Group) (content : Content) (read : List Str) : StepRes :=
  if isItemLine l then
    if inEx then .skip
    else if cur = [] then .err
    else .cont inEx cur (mmInsert (trim (keyOf l), trim (valOf l)) grp) content read
  else if isSectionLine l then
    if cur ≠ [] ∧ grp ≠ [] then
      match lookupSec content cur with
      | some _ => .err
      | none =>
        .cont (chkIgnoreL E I (sectionName l)) (sectionName l) []
          (secInsert cur grp content) (read ++ [cur])
    else .cont (chkIgnoreL E I (sectionName l)) (sectionName l) [] content read
  else if sal = true ∧ inEx = false ∧ cur ≠ [] then
    .cont inEx cur (mmInsert (noname, l) grp) content read
  else .cont inEx cur grp content read

/-- The flush performed when the line loop ends (or is exited early):
the still-open section is inserted if it has a name and items, failing
on a duplicate name. -/
def finalFlush (cur : Str) (grp : Group) (content : Content) (read : List Str) :
    Bool × Content × List Str :=
  if cur ≠ [] ∧ grp ≠ [] then
    match lookupSec content cur with
    | some _ => (false, content, read)
    | none => (true, secInsert cur grp content, read ++ [cur])
  else (true, content, read)

/-- The `Parse` line loop.  Returns success flag, final `ini_content`
and final `read_sections` (on failure the partially built content is
returned, matching the early `return -1` of the C++ code which leaves
the already-inserted sections in the member map). -/
def parseGo (E I : List Str) (sal : Bool) :
    List Str → Bool → Str → Group → Content → List Str → Bool × Content × List Str
  | [], _, cur, grp, content, read => finalFlush cur grp content read
  | line :: rest, inEx, cur, grp, content, read =>
    if isSkippable (stripCR line) then parseGo E I sal rest inEx cur grp content read
    else
      match lineStep E I sal (stripCR line) inEx cur grp content read with
      | .err => (false, content, read)
      | .skip => parseGo E I sal rest inEx cur grp content read
      | .cont a b c d e =>
        if I ≠ [] ∧ I = e then finalFlush b c d e
        else parseGo E I sal rest a b c d e

/-- Model of `INIReader::Parse`.  It first erases all existing content
(`EraseAll`), chooses the delimiter, and runs the line loop; on success
`parsed` becomes true, on failure it stays false but the partially
inserted sections remain. -/
def Parse (st : IniState) (content : Str) : IniState × Int :=
  match parseGo st.exclude_sections st.include_sections st.store_any_line
      (linesOf content) false [] [] [] st.read_sections with
  | (true, c, r) => ({ st with parsed := true, ini_content := c, read_sections := r }, 0)
  | (false, c, r) => ({ st with parsed := false, ini_content := c, read_sections := r }, -1)

/-- Model of `INIReader::SectionExist`. -/
def SectionExist (st : IniState) (sec : Str) : Bool := (lookupSec st.ini_content sec).isSome

/-- Model of `INIReader::EnterSection`: fails for an unknown section,
otherwise sets the cursor and caches the section content. -/
def EnterSection (st : IniState) (sec : Str) : IniState × Int :=
  match lookupSec st.ini_content sec with
  | none => (st, -1)
  | some g =>
    ({ st with current_section := sec, cached_section := sec, cached_section_content := g }, 0)

/-- Model of `INIReader::SetCurrentSection`. -/
def SetCurrentSection (st : IniState) (sec : Str) : IniState :=
  { st with current_section := sec }

/-- Model of `INIReader::GetItems`: fails when unparsed or the section
is absent; refreshes the cache when a different section is requested,
and otherwise serves the cached snapshot. -/
def GetItems (st : IniState) (sec : Str) : IniState × Except Unit Group :=
  if st.parsed = false then (st, .error ())
  else if SectionExist st sec = false then (st, .error ())
  else if st.cached_section ≠ sec then
    match lookupSec st.ini_content sec with
    | some g => ({ st with cached_section := sec, cached_section_content := g }, .ok g)
    | none => (st, .error ())
  else (st, .ok st.cached_section_content)

/-- Model of `INIReader::GetAll`: values of every item whose key starts
with the given prefix, in group order. -/
def GetAll (st : IniState) (sec itemName : Str) : IniState × Except Unit (List Str) :=
  if st.parsed = false then (st, .error ())
  else
    match GetItems st sec with
    | (st2, .error _) => (st2, .error ())
    | (st2, .ok m) =>
      (st2, .ok ((m.filter (fun x => itemName.isPrefixOf x.1)).map (fun x => x.2)))

/-- Model of `INIReader::Get`: the value of the first item (in group
order) with an exactly matching key, or the empty string. -/
def Get (st : IniState) (sec itemName : Str) : IniState × Str :=
  if st.parsed = false then (st, [])
  else
    match GetItems st sec with
    | (st2, .error _) => (st2, [])
    | (st2, .ok m) =>
      match m.find? (fun x => decide (x.1 = itemName)) with
      | some x => (st2, x.2)
      | none => (st2, [])

/-- Model of `INIReader::GetFirst`: `result[0]` of `GetAll` when it did
not fail, otherwise the empty string.  The element access is modelled
with `head?`, whose `none` case corresponds to the out-of-bounds vector
access `result[0]` on an empty result. -/
def GetFirst (st : IniState) (sec itemName : Str) : IniState × Option Str :=
  if st.parsed = false then (st, some [])
  else
    match GetAll st sec itemName with
    | (st2, .ok r) => (st2, r.head?)
    | (st2, .error _) => (st2, some [])

/-- Model of `INIReader::Set` (qualified): marks the reader parsed,
appends the item to an existing section or creates a new section.  The
cached snapshot is not refreshed. -/
def Set (st : IniState) (sec itemName itemVal : Str) : IniState × Int :=
  match lookupSec st.ini_content sec with
  | some g =>
    ({ st with
        parsed := true
        ini_content := updateSec st.ini_content sec (mmInsert (itemName, itemVal) g) }, 0)
  | none =>
    ({ st with
        parsed := true
        ini_content := secInsert sec (mmInsert (itemName, itemVal) []) st.ini_content }, 0)

/-- Model of the unqualified `INIReader::Set`: fails when no current
section is set. -/
def SetCurrent (st : IniState) (itemName itemVal : Str) : IniState × Int :=
  if st.current_section = [] then (st, -1) else Set st st.current_section itemName itemVal

/-- Model of `INIReader::SetBool` (qualified). -/
def SetBool (st : IniState) (sec itemName : Str) (b : Bool) : IniState × Int :=
  Set st sec itemName (if b then ("true").data else ("false").data)

/-- Model of the unqualified `INIReader::SetBool`: delegates to the
current section without checking that a current section is set. -/
def SetBoolCurrent (st : IniState) (itemName : Str) (b : Bool) : IniState × Int :=
  SetBool st st.current_section itemName b

/-- Model of `INIReader::Erase`: removes every item with the exact key,
returns the number removed, refreshing the cache when the touched
section is the cached one; `-1` when the section is absent. -/
def Erase (st : IniState) (sec itemName : Str) : IniState × Int :=
  match lookupSec st.ini_content sec with
  | none => (st, -1)
  | some g =>
    let g2 := g.filter (fun y => decide (y.1 ≠ itemName))
    let retVal : Int := ((g.length - g2.length : Nat) : Int)
    let st2 := { st with ini_content := updateSec st.ini_content sec g2 }
    if retVal ≠ 0 ∧ st.cached_section = sec then
      ({ st2 with cached_section_content := g2 }, retVal)
    else (st2, retVal)

/-- Outcome of `EraseFirst`: a returned integer, or a thrown
`std::out_of_range` exception escaping the function. -/
inductive EraseFirstResult where
  | ret (code : Int) : EraseFirstResult
  | thrown : EraseFirstResult
  deriving DecidableEq

/-- Removal of the first item with the exact key, if any
(`multimap::find` followed by single-iterator `erase`). -/
def removeFirstKey : Group → Str → Option Group
  | [], _ => none
  | y :: rest, k => if y.1 = k then some rest else (removeFirstKey rest k).map (fun g => y :: g)

/-- Model of `INIReader::EraseFirst`: it dereferences
`ini_content.at(section)` without an existence check, so an absent
section throws `std::out_of_range` (modelled as `thrown`); otherwise it
erases the first match and refreshes the cache, or returns `-1` when no
item matches. -/
def EraseFirst (st : IniState) (sec itemName : Str) : IniState × EraseFirstResult :=
  match lookupSec st.ini_content sec with
  | none => (st, .thrown)
  | some g =>
    match removeFirstKey g itemName with
    | none => (st, .ret (-1))
    | some g2 =>
      let st2 := { st with ini_content := updateSec st.ini_content sec g2 }
      if st.cached_section = sec then ({ st2 with cached_section_content := g2 }, .ret 0)
      else (st2, .ret 0)

/-- Model of `INIReader::EraseAll`: clears the content map and resets
the parsed flag (`read_sections` is not cleared by the C++ code). -/
def EraseAll (st : IniState) : IniState :=
  { st with ini_content := [], parsed := false }

/-- One serialized item line including its newline: `key = value`, or
the bare value for the `{NONAME}` marker key. -/
def itemOut (p : Item) : Str :=
  (if p.1 ≠ noname then p.1 ++ [' ', '=', ' '] else []) ++ p.2 ++ ['\n']

/-- One serialized section: header line, item lines, and a blank line. -/
def serializeSection (p : Str × Group) : Str :=
  ('[' :: p.1 ++ [']', '\n']) ++ (p.2.map itemOut).flatten ++ ['\n']

/-- Model of `INIReader::ToString`: empty when unparsed, otherwise the
sections in map iteration order. -/
def ToString (st : IniState) : Str :=
  if st.parsed = false then [] else (st.ini_content.map serializeSection).flatten

end IniModel


namespace IniModel

/-- Fold of multimap inserts, the group built by inserting the given raw
item sequence in order into an empty multimap. -/
def mmFold (r : List Item) : Group := r.foldl (fun acc x => mmInsert x acc) []

/-- Items of a group with an exactly matching key, in group order. -/
def filterKey (k : Str) (g : Group) : Group := g.filter (fun y => decide (y.1 = k))

/-- First binding of a name in a name/value list. -/
def assocFind : List (Str × List Item) → Str → Option (List Item)
  | [], _ => none
  | (m, v) :: rest, n => if m = n then some v else assocFind rest n

/-- Specification-level segmentation of a line list (no filters): the
sequence of (section name, raw items in line order) pairs that the parse
loop flushes, in flush order; segments whose item group stays empty are
not flushed and do not appear.  `none` when an item line occurs outside
any section. -/
def segsGo (sal : Bool) : List Str → Str → List Item → Option (List (Str × List Item))
  | [], cur, raw => some (if cur ≠ [] ∧ raw ≠ [] then [(cur, raw)] else [])
  | line :: rest, cur, raw =>
    if isSkippable (stripCR line) then segsGo sal rest cur raw
    else if isItemLine (stripCR line) then
      if cur = [] then none
      else segsGo sal rest cur
        (raw ++ [(trim (keyOf (stripCR line)), trim (valOf (stripCR line)))])
    else if isSectionLine (stripCR line) then
      if cur ≠ [] ∧ raw ≠ [] then
        (segsGo sal rest (sectionName (stripCR line)) []).map (fun ss => (cur, raw) :: ss)
      else segsGo sal rest (sectionName (stripCR line)) []
    else if sal = true ∧ cur ≠ [] then segsGo sal rest cur (raw ++ [(noname, stripCR line)])
    else segsGo sal rest cur raw

/-- The segmentation of a whole input text, from the initial loop state. -/
def segsOf (sal : Bool) (t : Str) : Option (List (Str × List Item)) :=
  segsGo sal (linesOf t) [] []

/-- A group is sorted when no later item has a strictly smaller key
(the invariant maintained by `std::multimap`). -/
def mmSorted (g : Group) : Prop := List.Pairwise (fun x y : Item => ltStr y.1 x.1 = false) g

/-- The section map is strictly sorted by name. -/
def docSorted (c : Content) : Prop :=
  List.Pairwise (fun p q : Str × Group => ltStr p.1 q.1 = true) c

/-- Conditions on a stored item under which its serialized line survives
a reparse: trimmed key and value, no `=` in the key, no line
terminators, the key is not comment-prefixed and not the free-form
marker, and the serialized line fits the maximum line length. -/
def itemWF (k v : Str) : Prop :=
  trim k = k ∧ trim v = v ∧ '=' ∉ k ∧ '\n' ∉ k ∧ '\r' ∉ k ∧ '\n' ∉ v ∧ '\r' ∉ v ∧
  k.head? ≠ some ';' ∧ k.head? ≠ some '#' ∧ k ≠ noname ∧ k.length + v.length + 3 ≤ 4096

/-- Conditions on a stored section under which its serialized block
survives a reparse. -/
def secWF (n : Str) (g : Group) : Prop :=
  n ≠ [] ∧ '=' ∉ n ∧ '\n' ∉ n ∧ '\r' ∉ n ∧ n.length + 2 ≤ 4096 ∧ g ≠ [] ∧ mmSorted g ∧
  ∀ p ∈ g, itemWF p.1 p.2

/-- A well-formed document: strictly sorted section map, each section
well formed. -/
def docWF (c : Content) : Prop := docSorted c ∧ ∀ p ∈ c, secWF p.1 p.2

/-- A reader state holding a given parsed document (as after a
successful parse or a sequence of `Set` calls). -/
def docState (c : Content) : IniState := { initState with parsed := true, ini_content := c }

/-- A serialized item line without its newline terminator. -/
def rawItemLine (p : Item) : Str :=
  (if p.1 ≠ noname then p.1 ++ [' ', '=', ' '] else []) ++ p.2

/-- The logical lines a serialized section consists of: header line,
item lines, and a blank line. -/
def blockLines (p : Str × Group) : List Str :=
  ('[' :: p.1 ++ [']']) :: (p.2.map rawItemLine ++ [[]])

/-- Join a line list into a text with a newline after every line. -/
def joinNL (ls : List Str) : Str := (ls.map (fun l => l ++ ['\n'])).flatten

/-- The line view of a serialized document. -/
def docLines (c : Content) : List Str := (c.map blockLines).flatten

end IniModel

namespace IniModel

/-- Short names used by the concrete inputs below. -/
def sA : Str := ("a").data

def sB : Str := ("b").data

def sS : Str := ("s").data

def sX : Str := ("x").data

def sY : Str := ("y").data

def sZ : Str := ("z").data

def sK : Str := ("k").data

def sV : Str := ("v").data

def s1 : Str := ("1").data

def s2 : Str := ("2").data

def sZZ : Str := ("zz").data

/-- Input with two fully flushed sections named `a`. -/
def inputDupFull : Str := ("[a]\nx=1\n[a]\ny=2\n").data

/-- Input with two headers named `a` where the second group stays empty. -/
def inputDupEmptyGroup : Str := ("[a]\nx=1\n[a]\n").data

/-- A one-section input. -/
def inputBasic : Str := ("[a]\nx=1\n").data

/-- A section whose keys are not in alphabetical order. -/
def inputOrder : Str := ("[a]\nz=1\nb=2\n").data

/-- A line matching both the item and the section pattern. -/
def inputMixed : Str := ("[s]\n[a=b]\n").data

/-- A section with an item whose trimmed key starts with `;`. -/
def inputSemiKey : Str := ("[a]\n ;k=v\n").data

/-- Two sections, for filter tests. -/
def inputTwoSecs : Str := ("[a]\nx=1\n[b]\ny=2\n").data

/-- A section with a duplicated key. -/
def inputDupKey : Str := ("[a]\nk=1\nk=2\n").data

/-- The reader state of the C2 scenario: parse one section, enter it
(filling the cache), then `Set` a new item into that same section. -/
def c2State : IniState := (Set (EnterSection (Parse initState inputBasic).1 sA).1 sA sY s2).1

/-- A reader that excludes section `a`. -/
def c7State : IniState := { initState with exclude_sections := [sA] }

/-- The trimmed key of the item line ` ;k=v`. -/
def sSemiK : Str := (";k").data

end IniModel

namespace IniModel

/-- C1 counterexample: on the duplicate-section input the `Parse` call
fails with `-1`, yet the Document is not left cleared — the section `a`
flushed from the partially consumed input is still present in the
mapping (and visible through the public `SectionExist`). -/
theorem c1_counterexample :
    (Parse initState inputDupFull).2 = -1 ∧
    lookupSec (Parse initState inputDupFull).1.ini_content sA = some [(sX, s1)] ∧
    SectionExist (Parse initState inputDupFull).1 sA = true := by
  refine ⟨by decide, by decide, by decide⟩

/-- C1 amended: whenever `Parse` returns a failure the reader is left
unparsed (`parsed = false`, so every read through `GetItems` fails), but
the Document is cleared only at the start of the call — sections flushed
before the error remain in the mapping. -/
theorem c1_failed_parse_is_unparsed (st : IniState) (t : Str)
    (h : (Parse st t).2 = -1) :
    (Parse st t).1.parsed = false ∧
    ∀ sec, (GetItems (Parse st t).1 sec).2 = .error () := by
  unfold Parse at h
  split at h
  · simp at h
  · rename_i c r heq
    simp [Parse, heq, GetItems]

/-- C1 witness: the amended statement at the concrete failing input. -/
theorem c1_failed_parse_is_unparsed_witness :
    (Parse initState inputDupFull).1.parsed = false ∧
    (GetItems (Parse initState inputDupFull).1 sA).2 = .error () := by
  have h := c1_failed_parse_is_unparsed initState inputDupFull (by decide)
  exact ⟨h.1, h.2 sA⟩

/-- C2: the failing scenario.  After parsing `[a]` with `x=1`, entering
section `a` (which fills the cache) and then `Set("a","y","2")`, the
item `(y,2)` is present in the Document, but `Get("a","y")` returns the
empty string because `Set` did not refresh the cached snapshot — the
claimed set-then-get round trip fails on the cached section. -/
theorem c2_set_then_get_stale_cache :
    (Get c2State sA sY).2 = [] ∧
    lookupSec c2State.ini_content sA = some [(sX, s1), (sY, s2)] ∧
    (Get c2State sA sY).2 ≠ s2 := by
  refine ⟨by decide, by decide, by decide⟩

/-- C6 counterexample: the line `[a=b]` matches both the item pattern
and the section pattern, and `Parse` classifies it as an item — it is
stored under section `s` with key `[a` and value `b]`, and no section
named `a=b` exists — because the code tests the item pattern first,
contrary to the claimed section-first order. -/
theorem c6_counterexample :
    isItemLine (("[a=b]").data) = true ∧
    isSectionLine (("[a=b]").data) = true ∧
    (Parse initState inputMixed).1.ini_content = [(sS, [(("[a").data, ("b]").data)])] ∧
    lookupSec (Parse initState inputMixed).1.ini_content (("a=b").data) = none := by
  refine ⟨by decide, by decide, by decide, by decide⟩

/-- C6 amended: the item pattern is tested before the section pattern —
inside a section, a line matching both is processed as a key/value item
appended to the current group (key and value split at the first `=`),
never as a section header. -/
theorem c6_item_pattern_first (E I : List Str) (sal : Bool) (l : Str) (cur : Str)
    (grp : Group) (content : Content) (read : List Str)
    (hitem : isItemLine l = true) (_hsec : isSectionLine l = true) (hcur : cur ≠ []) :
    lineStep E I sal l false cur grp content read =
      .cont false cur (mmInsert (trim (keyOf l), trim (valOf l)) grp) content read := by
  unfold lineStep
  rw [if_pos hitem]
  simp [hcur]

/-- C6 witness: the amended statement at the concrete line `[a=b]`. -/
theorem c6_item_pattern_first_witness :
    lineStep [] [] false (("[a=b]").data) false sS [] [] [] =
      .cont false sS
        (mmInsert (trim (keyOf (("[a=b]").data)), trim (valOf (("[a=b]").data))) []) [] [] :=
  c6_item_pattern_first [] [] false (("[a=b]").data) sS [] [] []
    (by decide) (by decide) (by decide)

/-- C8 counterexample: on the parsed input `[a] x=1`, `GetAll` for the
prefix `zz` returns success with an empty result list, so the claimed
"success implies at least one element" is false, and the `result[0]`
access of `GetFirst` is out of bounds (modelled by `head? = none`). -/
theorem c8_counterexample :
    (GetAll (Parse initState inputBasic).1 sA sZZ).2 = .ok [] ∧
    (GetFirst (Parse initState inputBasic).1 sA sZZ).2 = none := by
  exact ⟨rfl, rfl⟩

/-- C8 amended: `GetAll` may succeed with an empty result; `GetFirst`
returns the first element exactly when the result list is non-empty
(`head?`), is out of bounds (`none`) when `GetAll` succeeds with an
empty list, and returns the empty string when `GetAll` fails. -/
theorem c8_getfirst_follows_getall (st : IniState) (sec p : Str) :
    (∀ e, (GetAll st sec p).2 = .error e → (GetFirst st sec p).2 = some []) ∧
    (∀ r, (GetAll st sec p).2 = .ok r → (GetFirst st sec p).2 = r.head?) := by
  constructor
  · intro e he
    cases hp : st.parsed
    · simp [GetFirst, hp]
    · rcases hga : GetAll st sec p with ⟨st2, res⟩
      rw [hga] at he
      cases res with
      | error e0 => simp [GetFirst, hp, hga]
      | ok r => exact absurd he (by simp)
  · intro r hr
    cases hp : st.parsed
    · rw [GetAll] at hr
      simp [hp] at hr
    · rcases hga : GetAll st sec p with ⟨st2, res⟩
      rw [hga] at hr
      cases res with
      | error e0 => exact absurd hr (by simp)
      | ok r0 =>
        have hrr : r0 = r := by simpa using hr
        subst hrr
        simp [GetFirst, hp, hga]

/-- C8 witness: the amended statement at the concrete empty-success
input, where the out-of-bounds access is visible. -/
theorem c8_getfirst_follows_getall_witness :
    (GetFirst (Parse initState inputBasic).1 sA sZZ).2 = ([] : List Str).head? :=
  (c8_getfirst_follows_getall (Parse initState inputBasic).1 sA sZZ).2 [] rfl

/-- C9: `EraseFirst` on an absent section dereferences
`ini_content.at(section)` and throws `std::out_of_range` instead of
returning `-1` (the sibling `Erase` checks existence and returns `-1`);
on an existing section it removes exactly the first matching item,
leaving remaining duplicates in place, and returns `-1` without
modification when no item matches. -/
theorem c9_erasefirst_behaviour :
    (EraseFirst initState sA sK).2 = .thrown ∧
    EraseFirstResult.thrown ≠ EraseFirstResult.ret (-1) ∧
    (Erase initState sA sK).2 = -1 ∧
    (EraseFirst (Parse initState inputDupKey).1 sA sK).2 = .ret 0 ∧
    (EraseFirst (Parse initState inputDupKey).1 sA sK).1.ini_content = [(sA, [(sK, s2)])] ∧
    (EraseFirst (Parse initState inputDupKey).1 sA sX).2 = .ret (-1) ∧
    (EraseFirst (Parse initState inputDupKey).1 sA sX).1.ini_content
      = (Parse initState inputDupKey).1.ini_content := by
  refine ⟨by decide, by decide, by decide, by decide, by decide, by decide, by decide⟩

/-- C10 counterexample: the qualified `Set` with an empty section name
succeeds and creates a section keyed by the empty string, violating the
claimed invariant. -/
theorem c10_counterexample :
    (Set initState [] sK sV).2 = 0 ∧
    lookupSec (Set initState [] sK sV).1.ini_content [] = some [(sK, sV)] := by
  refine ⟨by decide, by decide⟩

end IniModel

namespace IniModel

/-- A name found after a sorted-position insert is either the inserted
name or was already present. -/
theorem lookupSec_secInsert_isSome (n : Str) (g : Group) :
    ∀ (c : Content) (m : Str), (lookupSec (secInsert n g c) m).isSome = true →
      m = n ∨ (lookupSec c m).isSome = true := by
  intro c
  induction c with
  | nil =>
    intro m h
    by_cases hm : n = m
    · exact Or.inl hm.symm
    · simp [secInsert, lookupSec, hm] at h
  | cons p rest ih =>
    rcases p with ⟨a, ga⟩
    intro m h
    by_cases hlt : ltStr n a = true
    · simp only [secInsert, if_pos hlt] at h
      by_cases hm : n = m
      · exact Or.inl hm.symm
      · simp only [lookupSec, if_neg hm] at h
        exact Or.inr h
    · simp only [secInsert, if_neg hlt] at h
      by_cases ham : a = m
      · exact Or.inr (by simp [lookupSec, ham])
      · simp only [lookupSec, if_neg ham] at h
        rcases ih m h with h1 | h2
        · exact Or.inl h1
        · exact Or.inr (by simpa [lookupSec, if_neg ham] using h2)

/-- Replacing the group of a section does not change which names are
present. -/
theorem lookupSec_updateSec_isSome (n : Str) (g : Group) :
    ∀ (c : Content) (m : Str),
      (lookupSec (updateSec c n g) m).isSome = (lookupSec c m).isSome := by
  intro c
  induction c with
  | nil => intro m; rfl
  | cons p rest ih =>
    rcases p with ⟨a, ga⟩
    intro m
    by_cases han : a = n
    · subst han
      by_cases ham : a = m
      · subst ham
        simp [updateSec, lookupSec]
      · simp [updateSec, lookupSec, ham]
    · by_cases ham : a = m
      · subst ham
        simp [updateSec, lookupSec, han]
      · simp [updateSec, lookupSec, han, ham, ih m]

/-- The keep condition of `chkIgnore` in the terms of the spec: kept iff
(include set empty or included) and not excluded. -/
theorem chkIgnoreL_eq_false_iff (E I : List Str) (n : Str) :
    chkIgnoreL E I n = false ↔ (I = [] ∨ n ∈ I) ∧ n ∉ E := by
  by_cases hI : I = []
  · subst hI
    simp [chkIgnoreL, List.count_pos_iff]
  · have hlen : I.length ≠ 0 := by
      intro hc
      exact hI (List.length_eq_zero.mp hc)
    simp [chkIgnoreL, hlen, List.count_pos_iff, hI]
    exact and_comm

/-- The final flush preserves the content invariant given by nonempty,
filter-passing names. -/
theorem finalFlush_content_inv (E I : List Str) (cur : Str) (grp : Group)
    (content : Content) (read : List Str)
    (hc : ∀ m, (lookupSec content m).isSome = true → m ≠ [] ∧ chkIgnoreL E I m = false)
    (hg : grp ≠ [] → cur ≠ [] ∧ chkIgnoreL E I cur = false) :
    ∀ m, (lookupSec (finalFlush cur grp content read).2.1 m).isSome = true →
      m ≠ [] ∧ chkIgnoreL E I m = false := by
  intro m h
  unfold finalFlush at h
  split at h
  · rename_i hcg
    split at h
    · exact hc m h
    · rcases lookupSec_secInsert_isSome cur grp content m h with hm | h2
      · subst hm
        exact hg hcg.2
      · exact hc m h2
  · exact hc m h

/-- Inversion of the per-line step: every `cont` outcome is an item or
free-form insertion into the current group, a header with a flush of
the previous section, a header without a flush, or a no-op. -/
theorem lineStep_cont_inv (E I : List Str) (sal : Bool) (l : Str) (inEx : Bool) (cur : Str)
    (grp : Group) (content : Content) (read : List Str) (a : Bool) (b : Str) (c : Group)
    (d : Content) (e : List Str)
    (h : lineStep E I sal l inEx cur grp content read = .cont a b c d e) :
    (a = inEx ∧ b = cur ∧ d = content ∧ e = read ∧
      ((∃ x, c = mmInsert x grp ∧ inEx = false ∧ cur ≠ []) ∨ c = grp)) ∨
    (b = sectionName l ∧ a = chkIgnoreL E I (sectionName l) ∧ c = [] ∧
      ((d = secInsert cur grp content ∧ e = read ++ [cur] ∧ grp ≠ [] ∧ cur ≠ [] ∧
          lookupSec content cur = none) ∨
        (d = content ∧ e = read))) := by
  unfold lineStep at h
  split at h
  · -- item line
    split at h
    · exact absurd h (by simp)
    · split at h
      · exact absurd h (by simp)
      · rename_i hinEx hcur
        injection h with h1 h2 h3 h4 h5
        subst h1; subst h2; subst h3; subst h4; subst h5
        exact Or.inl ⟨rfl, rfl, rfl, rfl,
          Or.inl ⟨_, rfl, Bool.not_eq_true inEx ▸ hinEx, hcur⟩⟩
  · split at h
    · -- section line
      split at h
      · rename_i hcg
        split at h
        · exact absurd h (by simp)
        · rename_i heq
          injection h with h1 h2 h3 h4 h5
          subst h1; subst h2; subst h3; subst h4; subst h5
          exact Or.inr ⟨rfl, rfl, rfl, Or.inl ⟨rfl, rfl, hcg.2, hcg.1, heq⟩⟩
      · injection h with h1 h2 h3 h4 h5
        subst h1; subst h2; subst h3; subst h4; subst h5
        exact Or.inr ⟨rfl, rfl, rfl, Or.inr ⟨rfl, rfl⟩⟩
    · split at h
      · -- free-form line
        rename_i hff
        injection h with h1 h2 h3 h4 h5
        subst h1; subst h2; subst h3; subst h4; subst h5
        exact Or.inl ⟨rfl, rfl, rfl, rfl, Or.inl ⟨_, rfl, hff.2.1, hff.2.2⟩⟩
      · injection h with h1 h2 h3 h4 h5
        subst h1; subst h2; subst h3; subst h4; subst h5
        exact Or.inl ⟨rfl, rfl, rfl, rfl, Or.inr rfl⟩

/-- Every section name present in the content produced by the parse
loop is non-empty and passes the include/exclude filter, given the loop
state invariants. -/
theorem parseGo_content_inv (E I : List Str) (sal : Bool) :
    ∀ (lines : List Str) (inEx : Bool) (cur : Str) (grp : Group) (content : Content)
      (read : List Str),
      (∀ m, (lookupSec content m).isSome = true → m ≠ [] ∧ chkIgnoreL E I m = false) →
      (grp ≠ [] → cur ≠ [] ∧ chkIgnoreL E I cur = false) →
      (cur ≠ [] → inEx = chkIgnoreL E I cur) →
      ∀ m, (lookupSec (parseGo E I sal lines inEx cur grp content read).2.1 m).isSome = true →
        m ≠ [] ∧ chkIgnoreL E I m = false := by
  intro lines
  induction lines with
  | nil =>
    intro inEx cur grp content read hc hg _ m h
    exact finalFlush_content_inv E I cur grp content read hc hg m h
  | cons line rest ih =>
    intro inEx cur grp content read hc hg hcur m h
    rw [parseGo] at h
    split at h
    · exact ih inEx cur grp content read hc hg hcur m h
    · split at h
      · exact hc m h
      · exact ih inEx cur grp content read hc hg hcur m h
      · rename_i a b c d e heq
        rcases lineStep_cont_inv E I sal (stripCR line) inEx cur grp content read a b c d e heq
          with ⟨ha, hb, hd, he, hrest⟩ | ⟨hb, ha, hcnil, hflush⟩
        · rw [ha, hb, hd, he] at h
          have hg2 : c ≠ [] → cur ≠ [] ∧ chkIgnoreL E I cur = false := by
            rcases hrest with ⟨x, hcx, hEx, hcurne⟩ | hcg
            · intro _
              refine ⟨hcurne, ?_⟩
              have := hcur hcurne
              rw [← this, hEx]
            · subst hcg
              exact hg
          split at h
          · exact finalFlush_content_inv E I cur c content read hc hg2 m h
          · exact ih inEx cur c content read hc hg2 hcur m h
        · rw [hb, ha, hcnil] at h
          rcases hflush with ⟨hd, he, hgrp, hcurne, hnone⟩ | ⟨hd, he⟩
          · rw [hd, he] at h
            have hc2 : ∀ m2, (lookupSec (secInsert cur grp content) m2).isSome = true →
                m2 ≠ [] ∧ chkIgnoreL E I m2 = false := by
              intro m2 h2
              rcases lookupSec_secInsert_isSome cur grp content m2 h2 with hm | hold
              · subst hm
                exact hg hgrp
              · exact hc m2 hold
            have hg2 : ([] : Group) ≠ [] → sectionName (stripCR line) ≠ [] ∧
                chkIgnoreL E I (sectionName (stripCR line)) = false := by
              intro hff
              exact absurd rfl hff
            have hcur2 : sectionName (stripCR line) ≠ [] →
                chkIgnoreL E I (sectionName (stripCR line)) =
                  chkIgnoreL E I (sectionName (stripCR line)) := fun _ => rfl
            split at h
            · exact finalFlush_content_inv E I (sectionName (stripCR line)) []
                (secInsert cur grp content) (read ++ [cur]) hc2 hg2 m h
            · exact ih (chkIgnoreL E I (sectionName (stripCR line))) (sectionName (stripCR line))
                [] (secInsert cur grp content) (read ++ [cur]) hc2 hg2 hcur2 m h
          · rw [hd, he] at h
            have hg2 : ([] : Group) ≠ [] → sectionName (stripCR line) ≠ [] ∧
                chkIgnoreL E I (sectionName (stripCR line)) = false := by
              intro hff
              exact absurd rfl hff
            have hcur2 : sectionName (stripCR line) ≠ [] →
                chkIgnoreL E I (sectionName (stripCR line)) =
                  chkIgnoreL E I (sectionName (stripCR line)) := fun _ => rfl
            split at h
            · exact finalFlush_content_inv E I (sectionName (stripCR line)) [] content read
                hc hg2 m h
            · exact ih (chkIgnoreL E I (sectionName (stripCR line))) (sectionName (stripCR line))
                [] content read hc hg2 hcur2 m h

/-- Every section present after any `Parse` call (successful or not)
has a non-empty name and passes the include/exclude filter. -/
theorem Parse_content_inv (st : IniState) (t : Str) (m : Str)
    (h : (lookupSec (Parse st t).1.ini_content m).isSome = true) :
    m ≠ [] ∧ chkIgnoreL st.exclude_sections st.include_sections m = false := by
  have hgo : ∀ m2, (lookupSec (parseGo st.exclude_sections st.include_sections
      st.store_any_line (linesOf t) false [] [] [] st.read_sections).2.1 m2).isSome = true →
      m2 ≠ [] ∧ chkIgnoreL st.exclude_sections st.include_sections m2 = false := by
    intro m2 h2
    refine parseGo_content_inv st.exclude_sections st.include_sections st.store_any_line
      (linesOf t) false [] [] [] st.read_sections ?_ ?_ ?_ m2 h2
    · intro m3 h3
      simp [lookupSec] at h3
    · intro hff
      exact absurd rfl hff
    · intro hff
      exact absurd rfl hff
  unfold Parse at h
  split at h <;> rename_i c r heq <;>
    exact hgo m (by rw [heq]; exact h)

end IniModel

namespace IniModel

/-- C7: a section named `n` is retained in the Document only if the
include set is empty or contains `n`, and `n` is not excluded; lines of
skipped sections are discarded, so no filtered-out name ever appears. -/
theorem c7_filter_retention (st : IniState) (t : Str) (n : Str)
    (h : (lookupSec (Parse st t).1.ini_content n).isSome = true) :
    (st.include_sections = [] ∨ n ∈ st.include_sections) ∧ n ∉ st.exclude_sections :=
  (chkIgnoreL_eq_false_iff st.exclude_sections st.include_sections n).mp
    (Parse_content_inv st t n h).2

/-- C7 witness: with exclude set `{a}` on the two-section input, the
retained section `b` passes the filter. -/
theorem c7_filter_retention_witness :
    (c7State.include_sections = [] ∨ sB ∈ c7State.include_sections) ∧
    sB ∉ c7State.exclude_sections :=
  c7_filter_retention c7State inputTwoSecs sB (by decide)

/-- C10 amended: `Parse` only ever stores sections with non-empty
names, and `Set` preserves the non-empty-name invariant whenever its
section argument is non-empty; the invariant can only be broken by a
`Set` (or unqualified `SetBool`) with an empty section name. -/
theorem c10_nonempty_names_parse_and_set :
    (∀ st t n, (lookupSec (Parse st t).1.ini_content n).isSome = true → n ≠ []) ∧
    (∀ st sec k v n, sec ≠ [] →
      (∀ m, (lookupSec st.ini_content m).isSome = true → m ≠ []) →
      (lookupSec (Set st sec k v).1.ini_content n).isSome = true → n ≠ []) := by
  constructor
  · intro st t n h
    exact (Parse_content_inv st t n h).1
  · intro st sec k v n hsec hinv h
    unfold Set at h
    split at h
    · rename_i g hg
      have h2 : (lookupSec (updateSec st.ini_content sec (mmInsert (k, v) g)) n).isSome
          = true := h
      rw [lookupSec_updateSec_isSome sec (mmInsert (k, v) g) st.ini_content n] at h2
      exact hinv n h2
    · rename_i hg
      have h2 : (lookupSec (secInsert sec (mmInsert (k, v) []) st.ini_content) n).isSome
          = true := h
      rcases lookupSec_secInsert_isSome sec (mmInsert (k, v) []) st.ini_content n h2
        with hn | hold
      · subst hn
        exact hsec
      · exact hinv n hold

/-- C10 witness: both parts of the amended statement at concrete
inputs. -/
theorem c10_nonempty_names_witness : sA ≠ ([] : Str) ∧ sY ≠ ([] : Str) :=
  ⟨c10_nonempty_names_parse_and_set.1 initState inputBasic sA (by decide),
    c10_nonempty_names_parse_and_set.2 initState sY sK sV sY (by decide)
      (fun m h => by simp [lookupSec] at h) (by decide)⟩

end IniModel

namespace IniModel

/-- The strict string order is irreflexive. -/
theorem ltStr_irrefl : ∀ s : Str, ltStr s s = false := by
  intro s
  induction s with
  | nil => rfl
  | cons a as ih => simp [ltStr, lt_irrefl, ih]

/-- The strict string order is asymmetric. -/
theorem ltStr_asymm : ∀ a b : Str, ltStr a b = true → ltStr b a = false := by
  intro a
  induction a with
  | nil =>
    intro b h
    cases b with
    | nil => simp [ltStr] at h
    | cons y ys => rfl
  | cons x xs ih =>
    intro b h
    cases b with
    | nil => simp [ltStr] at h
    | cons y ys =>
      simp only [ltStr] at h ⊢
      by_cases h1 : x < y
      · simp [lt_asymm h1, h1]
      · rw [if_neg h1] at h
        by_cases h2 : y < x
        · rw [if_pos h2] at h
          simp at h
        · rw [if_neg h2] at h
          simp [h1, h2, ih ys h]

/-- Two strings neither of which is smaller are equal. -/
theorem ltStr_conn : ∀ a b : Str, ltStr a b = false → ltStr b a = false → a = b := by
  intro a
  induction a with
  | nil =>
    intro b h1 _
    cases b with
    | nil => rfl
    | cons y ys => simp [ltStr] at h1
  | cons x xs ih =>
    intro b h1 h2
    cases b with
    | nil => simp [ltStr] at h2
    | cons y ys =>
      simp only [ltStr] at h1 h2
      by_cases hxy : x < y
      · rw [if_pos hxy] at h1
        simp at h1
      · rw [if_neg hxy] at h1
        by_cases hyx : y < x
        · rw [if_pos hyx] at h2
          simp at h2
        · rw [if_neg hyx] at h1
          rw [if_neg hyx, if_neg hxy] at h2
          have hxyeq : x = y := le_antisymm (not_lt.mp hyx) (not_lt.mp hxy)
          rw [hxyeq, ih ys h1 h2]

/-- The strict string order is transitive. -/
theorem ltStr_trans : ∀ a b c : Str, ltStr a b = true → ltStr b c = true → ltStr a c = true := by
  intro a
  induction a with
  | nil =>
    intro b c h1 h2
    cases b with
    | nil => simp [ltStr] at h1
    | cons y ys =>
      cases c with
      | nil => simp [ltStr] at h2
      | cons z zs => rfl
  | cons x xs ih =>
    intro b c h1 h2
    cases b with
    | nil => simp [ltStr] at h1
    | cons y ys =>
      cases c with
      | nil => simp [ltStr] at h2
      | cons z zs =>
        simp only [ltStr] at h1 h2 ⊢
        by_cases hxy : x < y
        · by_cases hyz : y < z
          · simp [lt_trans hxy hyz]
          · rw [if_neg hyz] at h2
            by_cases hzy : z < y
            · rw [if_pos hzy] at h2
              simp at h2
            · have hyzeq : y = z := le_antisymm (not_lt.mp hzy) (not_lt.mp hyz)
              subst hyzeq
              simp [hxy]
        · rw [if_neg hxy] at h1
          by_cases hyx : y < x
          · rw [if_pos hyx] at h1
            simp at h1
          · rw [if_neg hyx] at h1
            have hxyeq : x = y := le_antisymm (not_lt.mp hyx) (not_lt.mp hxy)
            subst hxyeq
            by_cases hxz : x < z
            · simp [hxz]
            · rw [if_neg hxz] at h2
              by_cases hzx : z < x
              · rw [if_pos hzx] at h2
                simp at h2
              · rw [if_neg hzx] at h2
                simp [hxz, hzx, ih ys zs h1 h2]

/-- A multimap insert never produces the empty group. -/
theorem mmInsert_ne_nil (x : Item) (l : Group) : mmInsert x l ≠ [] := by
  cases l with
  | nil => simp [mmInsert]
  | cons y rest =>
    unfold mmInsert
    split <;> simp

/-- Membership in a multimap insert. -/
theorem mem_mmInsert (x : Item) : ∀ (l : Group) (z : Item), z ∈ mmInsert x l ↔ z = x ∨ z ∈ l := by
  intro l
  induction l with
  | nil => intro z; simp [mmInsert]
  | cons y rest ih =>
    intro z
    unfold mmInsert
    split
    · simp
    · simp [ih z]
      tauto

/-- An item not smaller than every existing key is appended at the end. -/
theorem mmInsert_append_of_ge (x : Item) :
    ∀ l : Group, (∀ y ∈ l, ltStr x.1 y.1 = false) → mmInsert x l = l ++ [x] := by
  intro l
  induction l with
  | nil => intro _; rfl
  | cons y rest ih =>
    intro hall
    unfold mmInsert
    rw [if_neg]
    · rw [ih (fun z hz => hall z (List.mem_cons_of_mem y hz))]
      rfl
    · simp [hall y (List.mem_cons_self y rest)]

/-- Multimap insert preserves sortedness. -/
theorem mmSorted_mmInsert (x : Item) :
    ∀ l : Group, mmSorted l → mmSorted (mmInsert x l) := by
  intro l
  induction l with
  | nil => intro _; simp [mmInsert, mmSorted]
  | cons y rest ih =>
    intro hs
    rcases List.pairwise_cons.mp hs with ⟨hy, hrest⟩
    unfold mmInsert
    split
    · rename_i hlt
      refine List.pairwise_cons.mpr ⟨?_, hs⟩
      intro z hz
      rcases hz with _ | hz
      · exact ltStr_asymm x.1 y.1 hlt
      · by_contra hzc
        have hzx : ltStr z.1 x.1 = true := by
          cases hcase : ltStr z.1 x.1
          · exact absurd hcase hzc
          · rfl
        have := ltStr_trans z.1 x.1 y.1 hzx hlt
        rw [hy z (by assumption)] at this
        simp at this
    · rename_i hlt
      refine List.pairwise_cons.mpr ⟨?_, ih hrest⟩
      intro z hz
      rcases (mem_mmInsert x rest z).mp hz with hzx | hzr
      · subst hzx
        simp at hlt
        exact hlt
      · exact hy z hzr

end IniModel

namespace IniModel

/-- Folding one more insert. -/
theorem mmFold_append (r : List Item) (x : Item) :
    mmFold (r ++ [x]) = mmInsert x (mmFold r) := by
  simp [mmFold, List.foldl_append]

/-- A fold of inserts from a non-empty accumulator is non-empty. -/
theorem foldl_mmInsert_ne_nil :
    ∀ (r : List Item) (acc : Group), acc ≠ [] →
      r.foldl (fun acc x => mmInsert x acc) acc ≠ [] := by
  intro r
  induction r with
  | nil => intro acc h; simpa using h
  | cons x rest ih => intro acc _; exact ih (mmInsert x acc) (mmInsert_ne_nil x acc)

/-- The fold of inserts is empty exactly for an empty input. -/
theorem mmFold_eq_nil_iff (r : List Item) : mmFold r = [] ↔ r = [] := by
  constructor
  · intro h
    cases r with
    | nil => rfl
    | cons x rest =>
      exact absurd h (foldl_mmInsert_ne_nil rest (mmInsert x []) (mmInsert_ne_nil x []))
  · intro h
    subst h
    rfl

/-- A fold of inserts from a sorted accumulator stays sorted. -/
theorem foldl_mmInsert_sorted :
    ∀ (r : List Item) (acc : Group), mmSorted acc →
      mmSorted (r.foldl (fun acc x => mmInsert x acc) acc) := by
  intro r
  induction r with
  | nil => intro acc h; exact h
  | cons x rest ih => intro acc h; exact ih (mmInsert x acc) (mmSorted_mmInsert x acc h)

/-- The group built by the parse loop is always sorted by key. -/
theorem mmFold_sorted (r : List Item) : mmSorted (mmFold r) :=
  foldl_mmInsert_sorted r [] (by simp [mmSorted])

/-- Inserting an already sorted sequence in order appends it. -/
theorem foldl_mmInsert_append :
    ∀ (g : List Item) (acc : Group),
      (∀ x ∈ g, ∀ y ∈ acc, ltStr x.1 y.1 = false) → mmSorted g →
      g.foldl (fun acc x => mmInsert x acc) acc = acc ++ g := by
  intro g
  induction g with
  | nil => intro acc _ _; simp
  | cons x rest ih =>
    intro acc hcross hs
    rcases List.pairwise_cons.mp hs with ⟨hx, hrest⟩
    have h1 : mmInsert x acc = acc ++ [x] :=
      mmInsert_append_of_ge x acc (hcross x (List.mem_cons_self x rest))
    show rest.foldl (fun acc x => mmInsert x acc) (mmInsert x acc) = acc ++ x :: rest
    rw [h1, ih (acc ++ [x]) ?_ hrest]
    · simp
    · intro z hz y hy
      rcases List.mem_append.mp hy with hy1 | hy2
      · exact hcross z (List.mem_cons_of_mem x hz) y hy1
      · rw [List.mem_singleton.mp hy2]
        exact hx z hz

/-- Refolding an already sorted group reproduces it. -/
theorem mmFold_sorted_id (g : Group) (h : mmSorted g) : mmFold g = g := by
  have h2 := foldl_mmInsert_append g [] (by intro x _ y hy; simp at hy) h
  simpa [mmFold] using h2

/-- Unfolding of `filterKey` on a cons cell. -/
theorem filterKey_cons (k : Str) (z : Item) (g : Group) :
    filterKey k (z :: g) = if z.1 = k then z :: filterKey k g else filterKey k g := by
  by_cases h : z.1 = k <;> simp [filterKey, List.filter_cons, h]

/-- A group with no matching key filters to the empty list. -/
theorem filterKey_eq_nil_of (k : Str) :
    ∀ g : Group, (∀ z ∈ g, z.1 ≠ k) → filterKey k g = [] := by
  intro g
  induction g with
  | nil => intro _; rfl
  | cons z rest ih =>
    intro hall
    rw [filterKey_cons, if_neg (hall z (List.mem_cons_self z rest))]
    exact ih (fun w hw => hall w (List.mem_cons_of_mem z hw))

/-- `filterKey` distributes over append. -/
theorem filterKey_append (k : Str) (g1 g2 : Group) :
    filterKey k (g1 ++ g2) = filterKey k g1 ++ filterKey k g2 := by
  simp [filterKey, List.filter_append]

/-- Inserting into a sorted group puts a matching-key item at the end
of the matching-key run and leaves other keys untouched. -/
theorem filterKey_mmInsert (x : Item) (k : Str) :
    ∀ l : Group, mmSorted l →
      filterKey k (mmInsert x l) =
        if x.1 = k then filterKey k l ++ [x] else filterKey k l := by
  intro l
  induction l with
  | nil =>
    intro _
    by_cases hx : x.1 = k <;> simp [mmInsert, filterKey_cons, hx, filterKey]
  | cons y rest ih =>
    intro hs
    rcases List.pairwise_cons.mp hs with ⟨hy, hrest⟩
    unfold mmInsert
    split
    · rename_i hlt
      by_cases hx : x.1 = k
      · have hnil : filterKey k (y :: rest) = [] := by
          apply filterKey_eq_nil_of
          intro z hz hzk
          rcases List.mem_cons.mp hz with rfl | hz2
          · have hkk := hlt
            rw [hx, hzk] at hkk
            rw [ltStr_irrefl k] at hkk
            simp at hkk
          · have h3 := hlt
            rw [hx, ← hzk] at h3
            rw [hy z hz2] at h3
            simp at h3
        simp [filterKey_cons, hnil, hx]
      · rw [filterKey_cons, if_neg hx, if_neg hx]
    · rename_i hlt
      rw [filterKey_cons, ih hrest]
      by_cases hx : x.1 = k
      · rw [if_pos hx, if_pos hx, filterKey_cons]
        split <;> simp
      · rw [if_neg hx, if_neg hx, filterKey_cons]

/-- Filtering by key commutes with multimap folding: the matching items
appear in insertion order. -/
theorem mmFold_filterKey (k : Str) : ∀ r : List Item, filterKey k (mmFold r) = filterKey k r := by
  intro r
  induction r using List.reverseRecOn with
  | nil => rfl
  | append_singleton r x ih =>
    rw [mmFold_append, filterKey_mmInsert x k (mmFold r) (mmFold_sorted r), filterKey_append]
    by_cases hx : x.1 = k
    · rw [if_pos hx, ih]
      simp [filterKey_cons, hx, filterKey]
    · rw [if_neg hx, ih]
      simp [filterKey_cons, hx, filterKey]

/-- Lookup after inserting a fresh section name. -/
theorem lookupSec_secInsert (n : Str) (g : Group) :
    ∀ c : Content, lookupSec c n = none →
      ∀ m, lookupSec (secInsert n g c) m = if m = n then some g else lookupSec c m := by
  intro c
  induction c with
  | nil =>
    intro _ m
    by_cases hm : m = n
    · subst hm
      simp [secInsert, lookupSec]
    · simp [secInsert, lookupSec, hm, Ne.symm hm]
  | cons p rest ih =>
    rcases p with ⟨a, ga⟩
    intro hfresh m
    simp only [lookupSec] at hfresh
    by_cases han : a = n
    · rw [if_pos han] at hfresh
      simp at hfresh
    · rw [if_neg han] at hfresh
      unfold secInsert
      split
      · rename_i hlt
        by_cases hm : m = n
        · subst hm
          simp [lookupSec]
        · simp [lookupSec, hm, Ne.symm hm]
      · rename_i hlt
        by_cases ham : a = m
        · subst ham
          simp [lookupSec, han]
        · simp only [lookupSec, if_neg ham]
          rw [ih hfresh m]

/-- A name greater than every present name is appended at the end. -/
theorem secInsert_append_of_gt (n : Str) (g : Group) :
    ∀ c : Content, (∀ p ∈ c, ltStr n p.1 = false) → secInsert n g c = c ++ [(n, g)] := by
  intro c
  induction c with
  | nil => intro _; rfl
  | cons p rest ih =>
    rcases p with ⟨a, ga⟩
    intro hall
    unfold secInsert
    rw [if_neg]
    · rw [ih (fun q hq => hall q (List.mem_cons_of_mem (a, ga) hq))]
      rfl
    · simp [hall (a, ga) (List.mem_cons_self (a, ga) rest)]

/-- A name absent from the segment list has no binding. -/
theorem assocFind_eq_none (n : Str) :
    ∀ ss : List (Str × List Item), n ∉ ss.map Prod.fst → assocFind ss n = none := by
  intro ss
  induction ss with
  | nil => intro _; rfl
  | cons p rest ih =>
    rcases p with ⟨m, v⟩
    intro h
    simp only [List.map_cons, List.mem_cons] at h
    push_neg at h
    unfold assocFind
    rw [if_neg (fun hc => h.1 hc.symm)]
    exact ih h.2

/-- A found binding is a member of the segment list. -/
theorem assocFind_mem (n : Str) (raw : List Item) :
    ∀ ss : List (Str × List Item), assocFind ss n = some raw → (n, raw) ∈ ss := by
  intro ss
  induction ss with
  | nil => intro h; simp [assocFind] at h
  | cons p rest ih =>
    rcases p with ⟨m, v⟩
    intro h
    unfold assocFind at h
    split at h
    · rename_i hm
      have hv : v = raw := Option.some.inj h
      subst hv
      subst hm
      exact List.mem_cons_self (m, v) rest
    · exact List.mem_cons_of_mem (m, v) (ih h)

/-- With no filters configured nothing is ignored. -/
theorem chkIgnoreL_nil (n : Str) : chkIgnoreL [] [] n = false := by
  simp [chkIgnoreL]

end IniModel

namespace IniModel

/-- With the excluded flag down, the per-line step never yields the
`continue`-without-check outcome. -/
theorem lineStep_ne_skip (E I : List Str) (sal : Bool) (l cur : Str) (grp : Group)
    (content : Content) (read : List Str) :
    lineStep E I sal l false cur grp content read ≠ .skip := by
  intro h
  unfold lineStep at h
  split at h
  · split at h
    · rename_i hfalse
      simp at hfalse
    · split at h
      · simp at h
      · simp at h
  · split at h
    · split at h
      · split at h
        · simp at h
        · simp at h
      · simp at h
    · split at h
      · simp at h
      · simp at h

/-- Unfolding of the parse loop on a skippable line. -/
theorem parseGo_cons_skip (E I : List Str) (sal : Bool) (line : Str) (rest : List Str)
    (inEx : Bool) (cur : Str) (grp : Group) (content : Content) (read : List Str)
    (hskip : isSkippable (stripCR line) = true) :
    parseGo E I sal (line :: rest) inEx cur grp content read =
      parseGo E I sal rest inEx cur grp content read := by
  rw [parseGo, if_pos hskip]

/-- Unfolding of the parse loop when the line step continues. -/
theorem parseGo_cons_cont (E I : List Str) (sal : Bool) (line : Str) (rest : List Str)
    (inEx : Bool) (cur : Str) (grp : Group) (content : Content) (read : List Str)
    (a : Bool) (b : Str) (c : Group) (d : Content) (e : List Str)
    (hskip : ¬isSkippable (stripCR line) = true)
    (hstep : lineStep E I sal (stripCR line) inEx cur grp content read = .cont a b c d e) :
    parseGo E I sal (line :: rest) inEx cur grp content read =
      if I ≠ [] ∧ I = e then finalFlush b c d e else parseGo E I sal rest a b c d e := by
  rw [parseGo, if_neg hskip, hstep]

/-- Unfolding of the parse loop when the line step fails. -/
theorem parseGo_cons_err (E I : List Str) (sal : Bool) (line : Str) (rest : List Str)
    (inEx : Bool) (cur : Str) (grp : Group) (content : Content) (read : List Str)
    (hskip : ¬isSkippable (stripCR line) = true)
    (hstep : lineStep E I sal (stripCR line) inEx cur grp content read = .err) :
    parseGo E I sal (line :: rest) inEx cur grp content read = (false, content, read) := by
  rw [parseGo, if_neg hskip, hstep]

/-- Lockstep characterization of a successful no-filter parse run: the
segmentation succeeds, the flushed names are fresh and duplicate-free,
and the final content maps each flushed name to the multimap fold of
its raw items. -/
theorem parseGo_nf_ok (sal : Bool) :
    ∀ (lines : List Str) (cur : Str) (raw : List Item) (content : Content) (read : List Str)
      (c2 : Content) (r2 : List Str),
      parseGo [] [] sal lines false cur (mmFold raw) content read = (true, c2, r2) →
      ∃ ss, segsGo sal lines cur raw = some ss ∧
        (∀ p ∈ ss, lookupSec content p.1 = none) ∧
        (ss.map Prod.fst).Nodup ∧
        ∀ n, lookupSec c2 n =
          (match assocFind ss n with
           | some rw => some (mmFold rw)
           | none => lookupSec content n) := by
  intro lines
  induction lines with
  | nil =>
    intro cur raw content read c2 r2 h
    unfold parseGo finalFlush at h
    split at h
    · rename_i hcg
      split at h
      · simp at h
      · rename_i hlook
        injection h with hb hrest
        injection hrest with hc hr
        have hraw : raw ≠ [] := fun hr0 => hcg.2 (by rw [hr0]; rfl)
        refine ⟨[(cur, raw)], ?_, ?_, by simp, ?_⟩
        · simp [segsGo, hcg.1, hraw]
        · intro p hp
          rcases List.mem_singleton.mp hp with rfl
          exact hlook
        · intro n
          rw [← hc, lookupSec_secInsert cur (mmFold raw) content hlook n]
          by_cases hn : n = cur
          · rw [if_pos hn]
            have ha : assocFind [(cur, raw)] n = some raw := by simp [assocFind, hn]
            rw [ha]
          · rw [if_neg hn]
            have ha : assocFind [(cur, raw)] n = none := by simp [assocFind, Ne.symm hn]
            rw [ha]
    · rename_i hcg
      injection h with hb hrest
      injection hrest with hc hr
      have hncr : ¬(cur ≠ [] ∧ raw ≠ []) := by
        intro hc0
        exact hcg ⟨hc0.1, fun hmm => hc0.2 ((mmFold_eq_nil_iff raw).mp hmm)⟩
      refine ⟨[], by simp [segsGo, hncr], by simp, by simp, ?_⟩
      intro n
      rw [← hc]
      rfl
  | cons line rest ih =>
    intro cur raw content read c2 r2 h
    by_cases hskip : isSkippable (stripCR line) = true
    · rw [parseGo_cons_skip [] [] sal line rest false cur (mmFold raw) content read hskip] at h
      obtain ⟨ss, hss, hfresh, hnd, hform⟩ := ih cur raw content read c2 r2 h
      exact ⟨ss, by rw [segsGo, if_pos hskip]; exact hss, hfresh, hnd, hform⟩
    · by_cases hitem : isItemLine (stripCR line) = true
      · by_cases hcur : cur = []
        · have hstep : lineStep [] [] sal (stripCR line) false cur (mmFold raw) content read
              = .err := by
            simp [lineStep, hitem, hcur]
          rw [parseGo_cons_err [] [] sal line rest false cur (mmFold raw) content read
            hskip hstep] at h
          simp at h
        · have hstep : lineStep [] [] sal (stripCR line) false cur (mmFold raw) content read =
              .cont false cur
                (mmInsert (trim (keyOf (stripCR line)), trim (valOf (stripCR line)))
                  (mmFold raw)) content read := by
            simp [lineStep, hitem, hcur]
          rw [parseGo_cons_cont [] [] sal line rest false cur (mmFold raw) content read
            false cur (mmInsert (trim (keyOf (stripCR line)), trim (valOf (stripCR line)))
              (mmFold raw)) content read hskip hstep] at h
          rw [if_neg (by simp)] at h
          rw [← mmFold_append raw (trim (keyOf (stripCR line)), trim (valOf (stripCR line)))] at h
          obtain ⟨ss, hss, hfresh, hnd, hform⟩ :=
            ih cur (raw ++ [(trim (keyOf (stripCR line)), trim (valOf (stripCR line)))])
              content read c2 r2 h
          refine ⟨ss, ?_, hfresh, hnd, hform⟩
          simp [segsGo, hskip, hitem, hcur, hss]
      · by_cases hsec : isSectionLine (stripCR line) = true
        · by_cases hcg : cur ≠ [] ∧ mmFold raw ≠ []
          · cases hlook : lookupSec content cur with
            | some g0 =>
              have hstep : lineStep [] [] sal (stripCR line) false cur (mmFold raw) content read
                  = .err := by
                simp [lineStep, hitem, hsec, hcg, hlook]
              rw [parseGo_cons_err [] [] sal line rest false cur (mmFold raw) content read
                hskip hstep] at h
              simp at h
            | none =>
              have hstep : lineStep [] [] sal (stripCR line) false cur (mmFold raw) content read =
                  .cont (chkIgnoreL [] [] (sectionName (stripCR line)))
                    (sectionName (stripCR line)) [] (secInsert cur (mmFold raw) content)
                    (read ++ [cur]) := by
                simp [lineStep, hitem, hsec, hcg, hlook]
              rw [chkIgnoreL_nil] at hstep
              rw [parseGo_cons_cont [] [] sal line rest false cur (mmFold raw) content read
                false (sectionName (stripCR line)) [] (secInsert cur (mmFold raw) content)
                (read ++ [cur]) hskip hstep] at h
              rw [if_neg (by simp)] at h
              obtain ⟨ss1, hss1, hfresh1, hnd1, hform1⟩ :=
                ih (sectionName (stripCR line)) [] (secInsert cur (mmFold raw) content)
                  (read ++ [cur]) c2 r2 h
              have hraw : raw ≠ [] := fun hr0 => hcg.2 (by rw [hr0]; rfl)
              have hfrout : ∀ p ∈ ss1, p.1 ≠ cur ∧ lookupSec content p.1 = none := by
                intro p hp
                have hf := hfresh1 p hp
                rw [lookupSec_secInsert cur (mmFold raw) content hlook p.1] at hf
                by_cases hpc : p.1 = cur
                · rw [if_pos hpc] at hf
                  simp at hf
                · rw [if_neg hpc] at hf
                  exact ⟨hpc, hf⟩
              refine ⟨(cur, raw) :: ss1, ?_, ?_, ?_, ?_⟩
              · simp [segsGo, hskip, hitem, hsec, hcg.1, hraw, hss1]
              · intro p hp
                rcases List.mem_cons.mp hp with rfl | hp2
                · exact hlook
                · exact (hfrout p hp2).2
              · simp only [List.map_cons]
                refine List.nodup_cons.mpr ⟨?_, hnd1⟩
                intro hmem
                rcases List.mem_map.mp hmem with ⟨p, hp, hpe⟩
                exact (hfrout p hp).1 hpe
              · intro n
                by_cases hn : n = cur
                · have ha : assocFind ((cur, raw) :: ss1) n = some raw := by
                    simp [assocFind, hn]
                  rw [ha]
                  have hnone : assocFind ss1 n = none := by
                    refine assocFind_eq_none n ss1 ?_
                    intro hmem
                    rcases List.mem_map.mp hmem with ⟨p, hp, hpe⟩
                    exact (hfrout p hp).1 (hpe.trans hn)
                  rw [hform1 n, hnone]
                  show lookupSec (secInsert cur (mmFold raw) content) n = some (mmFold raw)
                  rw [lookupSec_secInsert cur (mmFold raw) content hlook n, if_pos hn]
                · have ha : assocFind ((cur, raw) :: ss1) n = assocFind ss1 n := by
                    simp [assocFind, Ne.symm hn]
                  rw [ha, hform1 n]
                  cases hfind : assocFind ss1 n with
                  | some rw0 => rfl
                  | none =>
                    show lookupSec (secInsert cur (mmFold raw) content) n = lookupSec content n
                    rw [lookupSec_secInsert cur (mmFold raw) content hlook n, if_neg hn]
          · have hstep : lineStep [] [] sal (stripCR line) false cur (mmFold raw) content read =
                .cont (chkIgnoreL [] [] (sectionName (stripCR line)))
                  (sectionName (stripCR line)) [] content read := by
              simp [lineStep, hitem, hsec, hcg]
            rw [chkIgnoreL_nil] at hstep
            rw [parseGo_cons_cont [] [] sal line rest false cur (mmFold raw) content read
              false (sectionName (stripCR line)) [] content read hskip hstep] at h
            rw [if_neg (by simp)] at h
            obtain ⟨ss1, hss1, hfresh1, hnd1, hform1⟩ :=
              ih (sectionName (stripCR line)) [] content read c2 r2 h
            have hncr : ¬(cur ≠ [] ∧ raw ≠ []) := by
              intro hc0
              exact hcg ⟨hc0.1, fun hmm => hc0.2 ((mmFold_eq_nil_iff raw).mp hmm)⟩
            exact ⟨ss1, by simp [segsGo, hskip, hitem, hsec, hncr, hss1], hfresh1, hnd1, hform1⟩
        · by_cases hff : sal = true ∧ cur ≠ []
          · have hstep : lineStep [] [] sal (stripCR line) false cur (mmFold raw) content read =
                .cont false cur (mmInsert (noname, stripCR line) (mmFold raw)) content read := by
              simp [lineStep, hitem, hsec, hff.1, hff.2]
            rw [parseGo_cons_cont [] [] sal line rest false cur (mmFold raw) content read
              false cur (mmInsert (noname, stripCR line) (mmFold raw)) content read
              hskip hstep] at h
            rw [if_neg (by simp)] at h
            rw [← mmFold_append raw (noname, stripCR line)] at h
            obtain ⟨ss, hss, hfresh, hnd, hform⟩ :=
              ih cur (raw ++ [(noname, stripCR line)]) content read c2 r2 h
            refine ⟨ss, ?_, hfresh, hnd, hform⟩
            rw [segsGo, if_neg hskip, if_neg hitem, if_neg hsec, if_pos hff]
            exact hss
          · have hstep : lineStep [] [] sal (stripCR line) false cur (mmFold raw) content read =
                .cont false cur (mmFold raw) content read := by
              simp only [lineStep]
              rw [if_neg (by simp [hitem]), if_neg (by simp [hsec]), if_neg (by
                intro hcond
                exact hff ⟨hcond.1, hcond.2.2⟩)]
            rw [parseGo_cons_cont [] [] sal line rest false cur (mmFold raw) content read
              false cur (mmFold raw) content read hskip hstep] at h
            rw [if_neg (by simp)] at h
            obtain ⟨ss, hss, hfresh, hnd, hform⟩ := ih cur raw content read c2 r2 h
            refine ⟨ss, ?_, hfresh, hnd, hform⟩
            simp [segsGo, hskip, hitem, hsec, hff, hss]

end IniModel

namespace IniModel

/-- C4 counterexample: the input `[a] x=1 [a]` contains two section
headers named `a`, no filter is configured, and yet `Parse` succeeds
(the second header group stays empty, so it is never flushed and the
duplicate is not detected). -/
theorem c4_counterexample :
    (Parse initState inputDupEmptyGroup).2 = 0 ∧
    (Parse initState inputDupEmptyGroup).1.ini_content = [(sA, [(sX, s1)])] := by
  refine ⟨by decide, by decide⟩

/-- C4 amended: with no include/exclude filters configured, `Parse`
fails with the duplicate-section error whenever two flushed segments
share a name — that is, two headers with the same name each accumulate
at least one stored item before the next header or the end of input. -/
theorem c4_duplicate_flush_fails (st : IniState) (t : Str) (ss : List (Str × List Item))
    (hE : st.exclude_sections = []) (hI : st.include_sections = [])
    (hseg : segsOf st.store_any_line t = some ss)
    (hdup : ¬(ss.map Prod.fst).Nodup) :
    (Parse st t).2 = -1 := by
  unfold Parse
  rw [hE, hI]
  rcases hp : parseGo [] [] st.store_any_line (linesOf t) false [] [] [] st.read_sections
    with ⟨b, cc, rr⟩
  cases b
  · rfl
  · exfalso
    obtain ⟨ss0, hss0, -, hnd0, -⟩ :=
      parseGo_nf_ok st.store_any_line (linesOf t) [] [] [] st.read_sections cc rr hp
    rw [segsOf, hss0] at hseg
    exact hdup (Option.some.inj hseg ▸ hnd0)

/-- C4 witness: the amended statement at the fully duplicated input. -/
theorem c4_duplicate_flush_fails_witness : (Parse initState inputDupFull).2 = -1 :=
  c4_duplicate_flush_fails initState inputDupFull
    [(sA, [(sX, s1)]), (sA, [(sY, s2)])] rfl rfl (by decide) (by decide)

/-- C5 counterexample: for the input `[a] z=1 b=2` the stored group is
ordered by key, not by line order — `GetItems` returns `(b,2)` before
`(z,1)` and `GetAll` with the empty prefix returns the values as
`[2, 1]`, not in the claimed line order `[1, 2]`. -/
theorem c5_counterexample :
    (GetItems (Parse initState inputOrder).1 sA).2 = .ok [(sB, s2), (sZ, s1)] ∧
    (GetAll (Parse initState inputOrder).1 sA []).2 = .ok [s2, s1] ∧
    ([s2, s1] : List Str) ≠ [s1, s2] := by
  refine ⟨rfl, rfl, by decide⟩

/-- C5 amended: each stored section group is the multimap fold of its
raw line-order items — sorted by key, with only the items sharing an
exact key preserving their relative line order (`filterKey` agrees with
the raw line order for every key). -/
theorem c5_groups_sorted_with_stable_keys (st : IniState) (t : Str) (n : Str) (g : Group)
    (hE : st.exclude_sections = []) (hI : st.include_sections = [])
    (hlook : lookupSec (Parse st t).1.ini_content n = some g)
    (hok : (Parse st t).2 = 0) :
    ∃ ss raw, segsOf st.store_any_line t = some ss ∧ (n, raw) ∈ ss ∧ g = mmFold raw ∧
      mmSorted g ∧ ∀ k, filterKey k g = filterKey k raw := by
  unfold Parse at hok hlook
  rw [hE, hI] at hok hlook
  split at hlook
  · rename_i cc rr heq
    have hlook2 : lookupSec cc n = some g := hlook
    obtain ⟨ss, hss, hfresh, hnd, hform⟩ :=
      parseGo_nf_ok st.store_any_line (linesOf t) [] [] [] st.read_sections cc rr heq
    have hf := hform n
    rw [hlook2] at hf
    cases hfind : assocFind ss n with
    | none =>
      rw [hfind] at hf
      simp [lookupSec] at hf
    | some raw =>
      rw [hfind] at hf
      have hg : g = mmFold raw := Option.some.inj hf
      refine ⟨ss, raw, ?_, assocFind_mem n raw ss hfind, hg, ?_, ?_⟩
      · rw [segsOf]
        exact hss
      · rw [hg]
        exact mmFold_sorted raw
      · intro k
        rw [hg]
        exact mmFold_filterKey k raw
  · rename_i cc rr heq
    rw [heq] at hok
    have hok2 : (-1 : Int) = 0 := hok
    exact absurd hok2 (by decide)

/-- C5 witness: the amended statement at the out-of-order input. -/
theorem c5_groups_sorted_witness :
    ∃ ss raw, segsOf initState.store_any_line inputOrder = some ss ∧ (sA, raw) ∈ ss ∧
      [(sB, s2), (sZ, s1)] = mmFold raw ∧ mmSorted [(sB, s2), (sZ, s1)] ∧
      ∀ k, filterKey k [(sB, s2), (sZ, s1)] = filterKey k raw :=
  c5_groups_sorted_with_stable_keys initState inputOrder sA [(sB, s2), (sZ, s1)]
    rfl rfl (by decide) (by decide)

end IniModel

namespace IniModel

/-- Right trimming never lengthens a string. -/
theorem trimR_length_le (s : Str) : (trimR s).length ≤ s.length := by
  simp only [trimR, List.length_reverse]
  have h := (List.dropWhile_suffix (l := s.reverse) Char.isWhitespace).length_le
  simpa using h

/-- A fully trimmed string is both left- and right-trimmed. -/
theorem trim_eq_self_split (s : Str) (h : trim s = s) : trimL s = s ∧ trimR s = s := by
  have h1 : trimL s <:+ s := List.dropWhile_suffix _
  have hlen1 : (trimL s).length ≤ s.length := h1.length_le
  have hlen2 : s.length ≤ (trimL s).length := by
    have h3 : (trim s).length ≤ (trimL s).length := trimR_length_le (trimL s)
    rw [h] at h3
    exact h3
  have hL : trimL s = s := List.IsSuffix.eq_of_length h1 (le_antisymm hlen1 hlen2)
  refine ⟨hL, ?_⟩
  calc trimR s = trimR (trimL s) := by rw [hL]
    _ = trim s := rfl
    _ = s := h

/-- A left-trimmed non-empty string starts with a non-whitespace
character. -/
theorem head_not_ws_of_trimL_eq (a : Char) (t : Str) (h : trimL (a :: t) = a :: t) :
    a.isWhitespace = false := by
  by_contra hc
  have hws : a.isWhitespace = true := by
    cases hcase : a.isWhitespace
    · exact absurd hcase hc
    · rfl
  unfold trimL at h
  rw [List.dropWhile_cons, if_pos hws] at h
  have hlen := congrArg List.length h
  have hle : (List.dropWhile Char.isWhitespace t).length ≤ t.length :=
    (List.dropWhile_suffix _).length_le
  simp at hlen
  omega

/-- A right-trimmed string has a whitespace-free reversed prefix. -/
theorem reverse_dropWhile_of_trimR (s : Str) (hR : trimR s = s) :
    s.reverse.dropWhile Char.isWhitespace = s.reverse := by
  unfold trimR at hR
  have h := congrArg List.reverse hR
  simpa using h

/-- Trimming removes a leading space from a trimmed value. -/
theorem trim_cons_space (v : Str) (h : trim v = v) : trim (' ' :: v) = v := by
  obtain ⟨hL, hR⟩ := trim_eq_self_split v h
  show trimR (trimL (' ' :: v)) = v
  have h1 : trimL (' ' :: v) = trimL v := by
    unfold trimL
    rw [List.dropWhile_cons, if_pos (by decide)]
  rw [h1, hL]
  exact hR

/-- Trimming removes a trailing space from a trimmed key. -/
theorem trim_append_space (k : Str) (h : trim k = k) : trim (k ++ [' ']) = k := by
  obtain ⟨hL, hR⟩ := trim_eq_self_split k h
  cases k with
  | nil => decide
  | cons a t =>
    have hhead : a.isWhitespace = false := head_not_ws_of_trimL_eq a t hL
    show trimR (trimL ((a :: t) ++ [' '])) = a :: t
    have h1 : trimL ((a :: t) ++ [' ']) = (a :: t) ++ [' '] := by
      show List.dropWhile Char.isWhitespace (a :: (t ++ [' '])) = a :: (t ++ [' '])
      rw [List.dropWhile_cons, if_neg (by simp [hhead])]
    rw [h1]
    unfold trimR
    rw [List.reverse_append]
    simp only [List.reverse_singleton, List.singleton_append]
    rw [List.dropWhile_cons, if_pos (by decide)]
    rw [reverse_dropWhile_of_trimR (a :: t) hR]
    simp

/-- The captured key is everything before the first `=`. -/
theorem keyOf_split (k2 r : Str) (h : '=' ∉ k2) : keyOf (k2 ++ '=' :: r) = k2 := by
  induction k2 with
  | nil => simp [keyOf]
  | cons c t ih =>
    have hc : c ≠ '=' := fun hc0 => h (by rw [hc0]; exact List.mem_cons_self _ _)
    simp only [List.cons_append, keyOf, List.append_eq]
    rw [if_neg hc, ih (fun hm => h (List.mem_cons_of_mem c hm))]

/-- The captured value is everything after the first `=`. -/
theorem valOf_split (k2 r : Str) (h : '=' ∉ k2) : valOf (k2 ++ '=' :: r) = r := by
  induction k2 with
  | nil => simp [valOf]
  | cons c t ih =>
    have hc : c ≠ '=' := fun hc0 => h (by rw [hc0]; exact List.mem_cons_self _ _)
    simp only [List.cons_append, valOf, List.append_eq]
    rw [if_neg hc]
    exact ih (fun hm => h (List.mem_cons_of_mem c hm))

/-- Carriage-return stripping is the identity on clean lines. -/
theorem stripCR_id (s : Str) (h : '\r' ∉ s) : stripCR s = s := by
  refine List.filter_eq_self.mpr ?_
  intro a ha
  simp only [decide_eq_true_eq]
  exact fun hc => h (hc ▸ ha)

end IniModel

namespace IniModel

/-- Classification facts for a serialized header line. -/
theorem header_props (n : Str) (_hne : n ≠ []) (hteq : '=' ∉ n) (hnl : '\n' ∉ n)
    (hcr : '\r' ∉ n) (hlen : n.length + 2 ≤ 4096) :
    stripCR ('[' :: n ++ [']']) = '[' :: n ++ [']'] ∧
    isSkippable ('[' :: n ++ [']']) = false ∧
    isItemLine ('[' :: n ++ [']']) = false ∧
    isSectionLine ('[' :: n ++ [']']) = true ∧
    sectionName ('[' :: n ++ [']']) = n := by
  have hlength : ('[' :: n ++ [']']).length = n.length + 2 := by simp
  have hmem : ∀ c : Char, c ∈ '[' :: n ++ [']'] → c = '[' ∨ c ∈ n ∨ c = ']' := by
    intro c hc
    rcases List.mem_cons.mp hc with h1 | h2
    · exact Or.inl h1
    · rcases List.mem_append.mp h2 with h3 | h4
      · exact Or.inr (Or.inl h3)
      · exact Or.inr (Or.inr (List.mem_singleton.mp h4))
  refine ⟨?_, ?_, ?_, ?_, ?_⟩
  · apply stripCR_id
    intro hm
    rcases hmem _ hm with h1 | h2 | h3
    · exact absurd h1 (by decide)
    · exact hcr h2
    · exact absurd h3 (by decide)
  · unfold isSkippable
    rw [decide_eq_false_iff_not]
    push_neg
    refine ⟨by simp, ?_, by simp, by simp⟩
    rw [hlength]
    omega
  · unfold isItemLine
    rw [decide_eq_false_iff_not]
    rintro ⟨hm, -⟩
    rcases hmem _ hm with h1 | h2 | h3
    · exact absurd h1 (by decide)
    · exact hteq h2
    · exact absurd h3 (by decide)
  · unfold isSectionLine
    rw [decide_eq_true_eq]
    refine ⟨by simp, ?_, by rw [hlength]; omega, ?_⟩
    · show (('[' :: n) ++ [']']).getLast? = some ']'
      rw [List.getLast?_append_cons]
      rfl
    · intro hm
      rcases hmem _ hm with h1 | h2 | h3
      · exact absurd h1 (by decide)
      · exact hnl h2
      · exact absurd h3 (by decide)
  · show (('[' :: n ++ [']']).drop 1).dropLast = n
    simp

/-- Classification facts for a serialized item line. -/
theorem rawItemLine_props (k v : Str) (h : itemWF k v) :
    stripCR (rawItemLine (k, v)) = rawItemLine (k, v) ∧
    isSkippable (rawItemLine (k, v)) = false ∧
    isItemLine (rawItemLine (k, v)) = true ∧
    trim (keyOf (rawItemLine (k, v))) = k ∧
    trim (valOf (rawItemLine (k, v))) = v := by
  obtain ⟨htk, htv, hek, hnk, hrk, hnv, hrv, hsemi, hhash, hnn, hlen⟩ := h
  have hshape : rawItemLine (k, v) = (k ++ [' ']) ++ '=' :: (' ' :: v) := by
    unfold rawItemLine
    rw [if_pos (by simpa using hnn)]
    simp
  have hkey : '=' ∉ k ++ [' '] := by
    intro hm
    rcases List.mem_append.mp hm with h1 | h2
    · exact hek h1
    · exact absurd (List.mem_singleton.mp h2) (by decide)
  have hmem : ∀ c : Char, c ∈ rawItemLine (k, v) →
      c ∈ k ∨ c = ' ' ∨ c = '=' ∨ c ∈ v := by
    intro c hc
    rw [hshape] at hc
    rcases List.mem_append.mp hc with h1 | h2
    · rcases List.mem_append.mp h1 with h3 | h4
      · exact Or.inl h3
      · exact Or.inr (Or.inl (List.mem_singleton.mp h4))
    · rcases List.mem_cons.mp h2 with h5 | h6
      · exact Or.inr (Or.inr (Or.inl h5))
      · rcases List.mem_cons.mp h6 with h7 | h8
        · exact Or.inr (Or.inl h7)
        · exact Or.inr (Or.inr (Or.inr h8))
  refine ⟨?_, ?_, ?_, ?_, ?_⟩
  · apply stripCR_id
    intro hm
    rcases hmem _ hm with h1 | h2 | h3 | h4
    · exact hrk h1
    · exact absurd h2 (by decide)
    · exact absurd h3 (by decide)
    · exact hrv h4
  · unfold isSkippable
    rw [decide_eq_false_iff_not]
    push_neg
    have hlength : (rawItemLine (k, v)).length = k.length + 3 + v.length := by
      rw [hshape]
      simp
      omega
    refine ⟨?_, by rw [hlength]; omega, ?_, ?_⟩
    · rw [hshape]
      cases k <;> simp
    · rw [hshape]
      cases k with
      | nil => simp
      | cons a t =>
        simp
        intro hc
        rw [hc] at hsemi
        exact hsemi rfl
    · rw [hshape]
      cases k with
      | nil => simp
      | cons a t =>
        simp
        intro hc
        rw [hc] at hhash
        exact hhash rfl
  · unfold isItemLine
    rw [decide_eq_true_eq]
    constructor
    · rw [hshape]
      simp
    · intro hm
      rcases hmem _ hm with h1 | h2 | h3 | h4
      · exact hnk h1
      · exact absurd h2 (by decide)
      · exact absurd h3 (by decide)
      · exact hnv h4
  · rw [hshape, keyOf_split (k ++ [' ']) (' ' :: v) hkey]
    exact trim_append_space k htk
  · rw [hshape, valOf_split (k ++ [' ']) (' ' :: v) hkey]
    exact trim_cons_space v htv

/-- C3 counterexample: parse `[a]` with the item line ` ;k=v` — stored
key `;k` — then serialize and reparse.  The reparse succeeds but yields
an empty Document, because the serialized line `;k = v` now starts with
`;` and is skipped as a comment, so the round trip loses the section. -/
theorem c3_counterexample :
    (Parse initState inputSemiKey).1.ini_content = [(sA, [(sSemiK, sV)])] ∧
    (Parse initState (ToString (Parse initState inputSemiKey).1)).2 = 0 ∧
    (Parse initState (ToString (Parse initState inputSemiKey).1)).1.ini_content = [] ∧
    [(sA, [(sSemiK, sV)])] ≠ ([] : Content) := by
  refine ⟨by decide, by decide, by decide, by decide⟩

end IniModel

namespace IniModel

/-- The splitter always produces at least one piece. -/
theorem splitter_ne_nil (d : Char) : ∀ t : Str, splitter d t ≠ [] := by
  intro t
  induction t with
  | nil => simp [splitter]
  | cons c rest ih =>
    cases hsp : splitter d rest with
    | nil => exact absurd hsp ih
    | cons l ls =>
      rw [splitter, hsp]
      by_cases hcd : c = d <;> simp [hcd]

/-- Splitting a text that starts with a delimiter-free piece. -/
theorem splitter_append (d : Char) :
    ∀ (l r : Str), d ∉ l → splitter d (l ++ d :: r) = l :: splitter d r := by
  intro l
  induction l with
  | nil =>
    intro r _
    show splitter d (d :: r) = [] :: splitter d r
    cases hsp : splitter d r with
    | nil => exact absurd hsp (splitter_ne_nil d r)
    | cons l0 ls =>
      rw [splitter, hsp]
      simp [hsp]
  | cons c t ih =>
    intro r h
    have hc : c ≠ d := fun hc0 => h (by rw [hc0]; exact List.mem_cons_self _ _)
    show splitter d (c :: (t ++ d :: r)) = (c :: t) :: splitter d r
    rw [splitter, ih r (fun hm => h (List.mem_cons_of_mem c hm))]
    simp [hc]

/-- Unfolding of `joinNL` on a cons cell. -/
theorem joinNL_cons (l : Str) (ls : List Str) :
    joinNL (l :: ls) = (l ++ ['\n']) ++ joinNL ls := by
  simp [joinNL]

/-- `joinNL` distributes over append. -/
theorem joinNL_append (l1 l2 : List Str) : joinNL (l1 ++ l2) = joinNL l1 ++ joinNL l2 := by
  simp [joinNL]

/-- A non-empty line list joins to a non-empty text. -/
theorem joinNL_ne_nil (ls : List Str) (h : ls ≠ []) : joinNL ls ≠ [] := by
  cases ls with
  | nil => exact absurd rfl h
  | cons l rest => simp [joinNL_cons]

/-- The joined text ends with a newline. -/
theorem joinNL_getLast (ls : List Str) (h : ls ≠ []) : (joinNL ls).getLast? = some '\n' := by
  induction ls with
  | nil => exact absurd rfl h
  | cons l rest ih =>
    cases rest with
    | nil =>
      rw [joinNL_cons]
      simp [joinNL]
    | cons r2 rs =>
      rw [joinNL_cons]
      rw [List.getLast?_append_of_ne_nil (l ++ ['\n'])
        (joinNL_ne_nil (r2 :: rs) (by simp))]
      exact ih (by simp)

/-- The joined text contains at least one newline per line. -/
theorem count_joinNL (ls : List Str) : ls.length ≤ (joinNL ls).count '\n' := by
  induction ls with
  | nil => simp [joinNL]
  | cons l rest ih =>
    rw [joinNL_cons, List.count_append, List.count_append]
    simp only [List.length_cons]
    have h1 : (['\n'] : Str).count '\n' = 1 := by decide
    omega

/-- Splitting the joined text recovers the lines plus a final empty
piece. -/
theorem splitter_joinNL (ls : List Str) (hnl : ∀ l ∈ ls, '\n' ∉ l) :
    splitter '\n' (joinNL ls) = ls ++ [[]] := by
  induction ls with
  | nil => rfl
  | cons l rest ih =>
    rw [joinNL_cons, List.append_assoc, List.singleton_append]
    rw [splitter_append '\n' l (joinNL rest) (hnl l (List.mem_cons_self l rest))]
    rw [ih (fun x hx => hnl x (List.mem_cons_of_mem l hx))]
    rfl

/-- The getline loop recovers exactly the joined lines. -/
theorem getlines_joinNL (ls : List Str) (hne : ls ≠ []) (hnl : ∀ l ∈ ls, '\n' ∉ l) :
    getlines '\n' (joinNL ls) = ls := by
  unfold getlines
  rw [if_neg (joinNL_ne_nil ls hne), if_pos (joinNL_getLast ls hne)]
  rw [splitter_joinNL ls hnl]
  simp

/-- With at least two lines the delimiter heuristic picks newline. -/
theorem delimOf_joinNL (ls : List Str) (h : 2 ≤ ls.length) : delimOf (joinNL ls) = '\n' := by
  unfold delimOf
  rw [if_neg]
  intro hc
  have := count_joinNL ls
  omega

/-- An output item line is the raw line plus its newline. -/
theorem itemOut_eq (p : Item) : itemOut p = rawItemLine p ++ ['\n'] := by
  unfold itemOut rawItemLine
  simp [List.append_assoc]

/-- The serialized items are the newline-joined raw item lines. -/
theorem itemsOut_eq (g : Group) : (g.map itemOut).flatten = joinNL (g.map rawItemLine) := by
  induction g with
  | nil => rfl
  | cons p rest ih =>
    rw [List.map_cons, List.map_cons, List.flatten_cons, joinNL_cons, ih, itemOut_eq]

/-- A serialized section is the newline-join of its block lines. -/
theorem serializeSection_eq (p : Str × Group) :
    serializeSection p = joinNL (blockLines p) := by
  unfold serializeSection blockLines
  rw [joinNL_cons, joinNL_append]
  rw [← itemsOut_eq p.2]
  show ('[' :: p.1 ++ [']', '\n']) ++ (p.2.map itemOut).flatten ++ ['\n'] =
    (('[' :: p.1 ++ [']']) ++ ['\n']) ++ ((p.2.map itemOut).flatten ++ joinNL [[]])
  simp [joinNL]

/-- The serializer output of a document state is the newline-join of
its block lines. -/
theorem ToString_docState (c : Content) :
    ToString (docState c) = joinNL ((c.map blockLines).flatten) := by
  show (c.map serializeSection).flatten = joinNL ((c.map blockLines).flatten)
  induction c with
  | nil => rfl
  | cons p rest ih =>
    rw [List.map_cons, List.map_cons, List.flatten_cons, List.flatten_cons, joinNL_append,
      serializeSection_eq p, ih]

end IniModel

namespace IniModel

/-- Processing the serialized item lines of a section accumulates
exactly the multimap inserts of its items. -/
theorem parseGo_itemLines (sal : Bool) (n : Str) (hn : n ≠ []) :
    ∀ (g : Group) (acc : Group) (content : Content) (read : List Str) (more : List Str),
      (∀ p ∈ g, itemWF p.1 p.2) →
      parseGo [] [] sal ((g.map rawItemLine) ++ more) false n acc content read =
        parseGo [] [] sal more false n (g.foldl (fun a x => mmInsert x a) acc) content read := by
  intro g
  induction g with
  | nil => intro acc content read more _; rfl
  | cons p rest ih =>
    intro acc content read more hWF
    rcases p with ⟨k, v⟩
    obtain ⟨hstrip, hskip, hitem, hkeytrim, hvaltrim⟩ :=
      rawItemLine_props k v (hWF (k, v) (List.mem_cons_self _ _))
    have hskip2 : ¬isSkippable (stripCR (rawItemLine (k, v))) = true := by
      rw [hstrip, hskip]
      simp
    have hstep : lineStep [] [] sal (stripCR (rawItemLine (k, v))) false n acc content read =
        .cont false n (mmInsert (k, v) acc) content read := by
      rw [hstrip]
      unfold lineStep
      rw [if_pos hitem, if_neg (by simp), if_neg hn, hkeytrim, hvaltrim]
    show parseGo [] [] sal (rawItemLine (k, v) :: (rest.map rawItemLine ++ more))
        false n acc content read = _
    rw [parseGo_cons_cont [] [] sal (rawItemLine (k, v)) (rest.map rawItemLine ++ more)
      false n acc content read false n (mmInsert (k, v) acc) content read hskip2 hstep]
    rw [if_neg (by simp)]
    rw [ih (mmInsert (k, v) acc) content read more
      (fun q hq => hWF q (List.mem_cons_of_mem _ hq))]
    rfl

/-- Inserting a strictly ascending section sequence appends it. -/
theorem foldl_secInsert_append :
    ∀ (c acc : Content),
      (∀ p ∈ c, ∀ q ∈ acc, ltStr p.1 q.1 = false) → docSorted c →
      c.foldl (fun m p => secInsert p.1 p.2 m) acc = acc ++ c := by
  intro c
  induction c with
  | nil => intro acc _ _; simp
  | cons p rest ih =>
    intro acc hcross hs
    rcases List.pairwise_cons.mp hs with ⟨hp, hrest⟩
    have h1 : secInsert p.1 p.2 acc = acc ++ [p] := by
      rw [secInsert_append_of_gt p.1 p.2 acc
        (fun q hq => hcross p (List.mem_cons_self _ _) q hq)]
    have hcross2 : ∀ z ∈ rest, ∀ q ∈ acc ++ [p], ltStr z.1 q.1 = false := by
      intro z hz q hq
      rcases List.mem_append.mp hq with h2 | h3
      · exact hcross z (List.mem_cons_of_mem _ hz) q h2
      · rw [List.mem_singleton.mp h3]
        exact ltStr_asymm p.1 z.1 (hp z hz)
    show rest.foldl (fun m p => secInsert p.1 p.2 m) (secInsert p.1 p.2 acc) = acc ++ p :: rest
    rw [h1, ih (acc ++ [p]) hcross2 hrest]
    simp

/-- Refolding a strictly sorted section map reproduces it. -/
theorem foldl_secInsert_sorted_id (c : Content) (h : docSorted c) :
    c.foldl (fun m p => secInsert p.1 p.2 m) [] = c := by
  have h2 := foldl_secInsert_append c [] (by intro p _ q hq; simp at hq) h
  simpa using h2

/-- No serialized line of a well-formed section contains a newline. -/
theorem blockLines_no_nl (p : Str × Group) (h : secWF p.1 p.2) :
    ∀ l ∈ blockLines p, '\n' ∉ l := by
  obtain ⟨hne, heq, hnl, hcr, hlen, hgne, hsort, hitems⟩ := h
  intro l hl
  rcases List.mem_cons.mp hl with rfl | h2
  · intro hm
    rcases List.mem_cons.mp hm with h1 | h3
    · exact absurd h1 (by decide)
    · rcases List.mem_append.mp h3 with h4 | h5
      · exact hnl h4
      · exact absurd (List.mem_singleton.mp h5) (by decide)
  · rcases List.mem_append.mp h2 with h3 | h4
    · rcases List.mem_map.mp h3 with ⟨q, hq, rfl⟩
      obtain ⟨-, -, -, hnk, -, hnv, -, -, -, hnn, -⟩ := hitems q hq
      intro hm
      unfold rawItemLine at hm
      rw [if_pos (by simpa using hnn)] at hm
      rcases List.mem_append.mp hm with h5 | h6
      · rcases List.mem_append.mp h5 with h7 | h8
        · exact hnk h7
        · exact absurd h8 (by decide)
      · exact hnv h6
    · rw [List.mem_singleton.mp h4]
      simp

/-- A block always has at least two lines. -/
theorem blockLines_length (p : Str × Group) : 2 ≤ (blockLines p).length := by
  unfold blockLines
  simp

/-- Processing the blocks of pending well-formed sections flushes them
all in order. -/
theorem parseGo_blocks (sal : Bool) :
    ∀ (bs : List (Str × Group)) (cur : Str) (grp : Group) (content : Content) (read : List Str),
      cur ≠ [] → grp ≠ [] → lookupSec content cur = none →
      (∀ p ∈ bs, lookupSec content p.1 = none) →
      (cur :: bs.map Prod.fst).Nodup →
      (∀ p ∈ bs, secWF p.1 p.2) →
      ∃ r2, parseGo [] [] sal ((bs.map blockLines).flatten) false cur grp content read =
        (true, bs.foldl (fun m p => secInsert p.1 p.2 m) (secInsert cur grp content), r2) := by
  intro bs
  induction bs with
  | nil =>
    intro cur grp content read hcur hgrp hlook _ _ _
    refine ⟨read ++ [cur], ?_⟩
    show finalFlush cur grp content read = _
    unfold finalFlush
    rw [if_pos ⟨hcur, hgrp⟩, hlook]
    rfl
  | cons b rest ih =>
    intro cur grp content read hcur hgrp hlook hfresh hnd hWF
    rcases b with ⟨n, g⟩
    have hsec := hWF (n, g) (List.mem_cons_self _ _)
    obtain ⟨hn, hneq, hnnl, hncr, hnlen, hgne, hgsort, hitems⟩ := hsec
    obtain ⟨hstrip, hskipH, hitemH, hsecH, hnameH⟩ := header_props n hn hneq hnnl hncr hnlen
    show ∃ r2, parseGo [] [] sal (blockLines (n, g) ++ (rest.map blockLines).flatten)
        false cur grp content read = _
    have hskip2 : ¬isSkippable (stripCR ('[' :: n ++ [']'])) = true := by
      rw [hstrip, hskipH]
      simp
    have hstep : lineStep [] [] sal (stripCR ('[' :: n ++ [']'])) false cur grp content read =
        .cont false n [] (secInsert cur grp content) (read ++ [cur]) := by
      rw [hstrip]
      unfold lineStep
      rw [if_neg (by rw [hitemH]; simp), if_pos hsecH, if_pos ⟨hcur, hgrp⟩, hlook]
      show StepRes.cont (chkIgnoreL [] [] (sectionName ('[' :: n ++ [']'])))
          (sectionName ('[' :: n ++ [']'])) [] (secInsert cur grp content) (read ++ [cur]) =
        StepRes.cont false n [] (secInsert cur grp content) (read ++ [cur])
      rw [hnameH, chkIgnoreL_nil]
    rw [show blockLines (n, g) ++ (rest.map blockLines).flatten =
        ('[' :: n ++ [']']) :: (g.map rawItemLine ++ ([[]] ++ (rest.map blockLines).flatten))
        from by unfold blockLines; simp]
    rw [parseGo_cons_cont [] [] sal ('[' :: n ++ [']'])
      (g.map rawItemLine ++ ([[]] ++ (rest.map blockLines).flatten)) false cur grp content read
      false n [] (secInsert cur grp content) (read ++ [cur]) hskip2 hstep]
    rw [if_neg (by simp)]
    rw [parseGo_itemLines sal n hn g [] (secInsert cur grp content) (read ++ [cur])
      ([[]] ++ (rest.map blockLines).flatten) hitems]
    rw [show g.foldl (fun a x => mmInsert x a) [] = g from mmFold_sorted_id g hgsort]
    rw [show ([[]] ++ (rest.map blockLines).flatten : List Str) =
        [] :: (rest.map blockLines).flatten from rfl]
    rw [parseGo_cons_skip [] [] sal [] ((rest.map blockLines).flatten) false n g
      (secInsert cur grp content) (read ++ [cur]) (by decide)]
    have hnc : n ≠ cur := by
      intro hnc
      have hnd1 := (List.nodup_cons.mp hnd).1
      apply hnd1
      have : cur ∈ (n :: rest.map Prod.fst) := by
        rw [← hnc]
        exact List.mem_cons_self _ _
      exact this
    have hlook2 : lookupSec (secInsert cur grp content) n = none := by
      rw [lookupSec_secInsert cur grp content hlook n, if_neg hnc]
      exact hfresh (n, g) (List.mem_cons_self _ _)
    have hfresh2 : ∀ p ∈ rest, lookupSec (secInsert cur grp content) p.1 = none := by
      intro p hp
      have hpc : p.1 ≠ cur := by
        intro hpc
        have hnd1 := (List.nodup_cons.mp hnd).1
        apply hnd1
        have : p.1 ∈ ((n, g) :: rest).map Prod.fst :=
          List.mem_map.mpr ⟨p, List.mem_cons_of_mem _ hp, rfl⟩
        rw [← hpc]
        exact this
      rw [lookupSec_secInsert cur grp content hlook p.1, if_neg hpc]
      exact hfresh p (List.mem_cons_of_mem _ hp)
    have hnd2 : (n :: rest.map Prod.fst).Nodup := (List.nodup_cons.mp hnd).2
    obtain ⟨r2, hrec⟩ := ih n g (secInsert cur grp content) (read ++ [cur]) hn hgne hlook2
      hfresh2 hnd2 (fun q hq => hWF q (List.mem_cons_of_mem _ hq))
    refine ⟨r2, ?_⟩
    rw [hrec]
    rfl

end IniModel

namespace IniModel

/-- Strictly sorted section names are duplicate-free. -/
theorem docSorted_names_nodup (c : Content) (h : docSorted c) : (c.map Prod.fst).Nodup := by
  have h2 : List.Pairwise (fun a b : Str => ltStr a b = true) (c.map Prod.fst) :=
    List.pairwise_map.mpr h
  refine h2.imp ?_
  intro a b hab hEq
  rw [hEq, ltStr_irrefl] at hab
  simp at hab

/-- C3 amended: for a well-formed document — keys and values trimmed
and free of line terminators, keys `=`-free, not comment-prefixed and
not the `{NONAME}` marker, section names non-empty and `=`-free, every
serialized line within the length limit, groups non-empty and key
sorted, the map strictly name sorted (all of which hold for the
documents a successful `Parse` produces from ordinary input) — parsing
the serializer output succeeds and reproduces exactly the same section
names mapped to the same item groups in the same order. -/
theorem c3_roundtrip_wf (c : Content) (hWF : docWF c) :
    (Parse initState (ToString (docState c))).2 = 0 ∧
    (Parse initState (ToString (docState c))).1.ini_content = c := by
  obtain ⟨hsorted, hsecs⟩ := hWF
  cases c with
  | nil => exact ⟨by decide, by decide⟩
  | cons b bs =>
    rcases b with ⟨n, g⟩
    have hsec := hsecs (n, g) (List.mem_cons_self _ _)
    obtain ⟨hn, hneq, hnnl, hncr, hnlen, hgne, hgsort, hitems⟩ := hsec
    obtain ⟨hstrip, hskipH, hitemH, hsecH, hnameH⟩ := header_props n hn hneq hnnl hncr hnlen
    have hts : ToString (docState ((n, g) :: bs)) =
        joinNL ((List.map blockLines ((n, g) :: bs)).flatten) := ToString_docState _
    have hlensL : 2 ≤ ((List.map blockLines ((n, g) :: bs)).flatten).length := by
      simp only [List.map_cons, List.flatten_cons, List.length_append]
      have := blockLines_length (n, g)
      omega
    have hnlL : ∀ l ∈ (List.map blockLines ((n, g) :: bs)).flatten, '\n' ∉ l := by
      intro l hl
      simp only [List.map_cons, List.flatten_cons] at hl
      rcases List.mem_append.mp hl with h1 | h2
      · exact blockLines_no_nl (n, g) ⟨hn, hneq, hnnl, hncr, hnlen, hgne, hgsort, hitems⟩ l h1
      · rcases List.mem_flatten.mp h2 with ⟨ls, hls, hlm⟩
        rcases List.mem_map.mp hls with ⟨q, hq, rfl⟩
        exact blockLines_no_nl q (hsecs q (List.mem_cons_of_mem _ hq)) l hlm
    have hlines : linesOf (ToString (docState ((n, g) :: bs))) =
        (List.map blockLines ((n, g) :: bs)).flatten := by
      rw [hts]
      unfold linesOf
      rw [delimOf_joinNL _ hlensL]
      refine getlines_joinNL _ ?_ hnlL
      intro hc
      rw [hc] at hlensL
      simp at hlensL
    have hskip2 : ¬isSkippable (stripCR ('[' :: n ++ [']'])) = true := by
      rw [hstrip, hskipH]
      simp
    have hstep : lineStep [] [] false (stripCR ('[' :: n ++ [']'])) false [] [] [] [] =
        .cont false n [] [] [] := by
      rw [hstrip]
      unfold lineStep
      rw [if_neg (by rw [hitemH]; simp), if_pos hsecH, if_neg (by simp)]
      show StepRes.cont (chkIgnoreL [] [] (sectionName ('[' :: n ++ [']'])))
          (sectionName ('[' :: n ++ [']'])) [] [] [] = StepRes.cont false n [] [] []
      rw [hnameH, chkIgnoreL_nil]
    have hrun : ∃ r2, parseGo [] [] false ((List.map blockLines ((n, g) :: bs)).flatten)
        false [] [] [] [] = (true, (n, g) :: bs, r2) := by
      show ∃ r2, parseGo [] [] false (blockLines (n, g) ++ (bs.map blockLines).flatten)
          false [] [] [] [] = _
      rw [show blockLines (n, g) ++ (bs.map blockLines).flatten =
          ('[' :: n ++ [']']) :: (g.map rawItemLine ++ ([[]] ++ (bs.map blockLines).flatten))
          from by unfold blockLines; simp]
      rw [parseGo_cons_cont [] [] false ('[' :: n ++ [']'])
        (g.map rawItemLine ++ ([[]] ++ (bs.map blockLines).flatten)) false [] [] [] []
        false n [] [] [] hskip2 hstep]
      rw [if_neg (by simp)]
      rw [parseGo_itemLines false n hn g [] [] [] ([[]] ++ (bs.map blockLines).flatten) hitems]
      rw [show g.foldl (fun a x => mmInsert x a) [] = g from mmFold_sorted_id g hgsort]
      rw [show ([[]] ++ (bs.map blockLines).flatten : List Str) =
          [] :: (bs.map blockLines).flatten from rfl]
      rw [parseGo_cons_skip [] [] false [] ((bs.map blockLines).flatten) false n g [] []
        (by decide)]
      have hfreshbs : ∀ p ∈ bs, lookupSec ([] : Content) p.1 = none := fun p _ => rfl
      have hndall : (n :: bs.map Prod.fst).Nodup :=
        docSorted_names_nodup ((n, g) :: bs) hsorted
      obtain ⟨r2, hrec⟩ := parseGo_blocks false bs n g [] [] hn hgne rfl hfreshbs hndall
        (fun q hq => hsecs q (List.mem_cons_of_mem _ hq))
      refine ⟨r2, ?_⟩
      rw [hrec]
      have hfold : bs.foldl (fun m p => secInsert p.1 p.2 m) (secInsert n g []) =
          (n, g) :: bs := foldl_secInsert_sorted_id ((n, g) :: bs) hsorted
      rw [hfold]
    obtain ⟨r2, hrun2⟩ := hrun
    unfold Parse
    rw [hlines]
    simp only [initState]
    rw [hrun2]
    exact ⟨rfl, rfl⟩

/-- C3 witness: the round trip at a concrete parsed document. -/
theorem c3_roundtrip_witness :
    (Parse initState (ToString (docState [(sA, [(sX, s1)])]))).2 = 0 ∧
    (Parse initState (ToString (docState [(sA, [(sX, s1)])]))).1.ini_content
      = [(sA, [(sX, s1)])] :=
  c3_roundtrip_wf [(sA, [(sX, s1)])]
    (by
      unfold docWF docSorted secWF itemWF mmSorted
      refine ⟨by decide, ?_⟩
      intro p hp
      rw [List.mem_singleton.mp hp]
      refine ⟨by decide, by decide, by decide, by decide, by decide, by decide, by decide, ?_⟩
      intro q hq
      rw [List.mem_singleton.mp hq]
      exact ⟨by decide, by decide, by decide, by decide, by decide, by decide, by decide,
        by decide, by decide, by decide, by decide⟩)

end IniModel
